import Mathlib

/-!
Verification of the B+ tree implementation in `src/bplus.js`.

Shallow embedding of the `BPlusTreeNode` / `BPlusTree` classes and of the four
operations `insert`, `insertNonFull`, `splitChild`, `search` (`_search`) and
`delete` (`_delete`).

Modelling conventions:
* a JS node `{isLeaf, keys, children}` becomes the inductive `Node`;
  `isLeaf = true` is the `leaf` constructor (children always empty there),
  `isLeaf = false` the `internal` constructor;
* keys are an arbitrary linearly ordered type (JS compares the string keys
  with `<` / `>`, lexicographically); the concrete examples use `String`;
* the mutable `next` leaf chain cannot be represented inside a purely
  functional tree (it aliases across subtrees).  `splitChild` links the new
  right leaf directly after the split leaf (`newNode.next = node.next;
  node.next = newNode`, lines 68-69), so the chain always enumerates the
  leaves from left to right; the chain is therefore embedded as the
  left-to-right sequence of leaves (`flatKeys`);
* out-of-bounds array reads (which would make the JS program read
  `undefined` or crash) are modelled with `Inhabited` defaults / `Option`
  fallbacks; all theorems whose proofs could touch those cases carry the
  hypotheses (`2 ≤ maxKeys`, well-formedness) making them unreachable,
  mirroring the states the JS program actually produces.
-/

namespace BPlus

variable {α : Type} [LinearOrder α] [Inhabited α]

/-- A B+ tree node (`class BPlusTreeNode`, lines 6-13): either a leaf holding
only keys, or an internal node holding routing keys and children. -/
inductive Node (α : Type) : Type where
  | leaf (keys : List α) : Node α
  | internal (keys : List α) (children : List (Node α)) : Node α

instance : Inhabited (Node α) := ⟨.leaf []⟩

/-- `node.keys`. -/
def Node.keys : Node α → List α
  | .leaf ks => ks
  | .internal ks _ => ks

/-- `node.children` (empty for leaves, as in the JS constructor). -/
def Node.children : Node α → List (Node α)
  | .leaf _ => []
  | .internal _ cs => cs

/-- `node.isLeaf`. -/
def Node.isLeaf : Node α → Bool
  | .leaf _ => true
  | .internal _ _ => false

/-- The scan loop of `_search`/`_delete` (lines 92-95 and 109-112):
`let i = 0; while (i < node.keys.length && key > node.keys[i]) i++;`
— the number of leading keys strictly below `key`, i.e. the first index `i`
with `key ≤ keys[i]`, or `keys.length` if there is none. -/
def scanIdx (key : α) (ks : List α) : Nat :=
  (ks.takeWhile (fun x => decide (x < key))).length

/-- The scan loop of `insertNonFull` (lines 36-41 / 44-47):
`let i = node.keys.length - 1; while (i >= 0 && key < node.keys[i]) i--;`
followed by `i + 1` (the leaf case splices at `i + 1`, the internal case
increments `i`).  The loop walks from the right end over the maximal suffix
of keys strictly above `key`; the result is the length of what is left. -/
def insScan (key : α) (ks : List α) : Nat :=
  (ks.rdropWhile (fun x => decide (key < x))).length

/-- `arr.splice(i, 0, a)` — insert `a` at position `i` (clamped to the
length, as JS does). -/
def spliceIn {β : Type} (l : List β) (i : Nat) (a : β) : List β :=
  l.take i ++ a :: l.drop i

/-- `_search(node, key)` (lines 91-102): scan, then `keys.includes(key)` at a
leaf, else recurse into `children[i]`.  (If `i` were out of bounds the JS
program would crash on `undefined`; that branch returns `false` and is
unreachable on the trees the program builds.) -/
def searchNode (key : α) : Node α → Bool
  | .leaf ks => decide (key ∈ ks)
  | .internal ks cs =>
      ((cs.attach.map fun ⟨c, _⟩ => searchNode key c).getD (scanIdx key ks) false)

/-- `_delete(node, key)` (lines 108-125): scan, and at a leaf remove the
first exact match (`indexOf` + `splice(index, 1)`), reporting whether a key
was removed (the two `console.log` branches); at an internal node recurse
into `children[i]`. -/
def deleteNode (key : α) : Node α → Node α × Bool
  | .leaf ks =>
      if key ∈ ks then (.leaf (ks.erase key), true) else (.leaf ks, false)
  | .internal ks cs =>
      match ((cs.attach.map fun ⟨c, _⟩ => deleteNode key c)[scanIdx key ks]?) with
      | some r => (.internal ks (cs.set (scanIdx key ks) r.1), r.2)
      | none => (.internal ks cs, false)

/-- The keys of the tree read off the leaf `next` chain: `splitChild` always
re-links the chain so that it enumerates the leaves left to right
(lines 68-69), so the chain is the in-order concatenation of the leaves. -/
def flatKeys : Node α → List α
  | .leaf ks => ks
  | .internal _ cs => (cs.attach.map fun ⟨c, _⟩ => flatKeys c).flatten

/-- Number of levels of the tree (a single leaf has height 1). -/
def height : Node α → Nat
  | .leaf _ => 1
  | .internal _ cs => ((cs.attach.map fun ⟨c, _⟩ => height c).foldr max 0) + 1

/-- Every node of the tree: the node itself and, recursively, all nodes of
its children. -/
def allNodes : Node α → List (Node α)
  | .leaf ks => [.leaf ks]
  | .internal ks cs =>
      .internal ks cs :: (cs.attach.map fun ⟨c, _⟩ => allNodes c).flatten

/-- The body of `splitChild` acting on the full node (lines 58-84): returns
the promoted key, the left node (what remains of `node`) and the new right
node.  Leaf case: the right half `keys[mid:]` moves to the new leaf and its
first key is promoted *without* being removed from the leaf.  Internal case:
`keys[mid]` is promoted and removed; the right halves of keys and children
move to the new node. -/
def splitNode (maxKeys : Nat) : Node α → α × Node α × Node α
  | .leaf ks =>
      let mid := (maxKeys + 1) / 2
      (((ks.drop mid).headI : α), .leaf (ks.take mid), .leaf (ks.drop mid))
  | .internal ks cs =>
      let mid := (maxKeys + 1) / 2
      (ks.getI mid, .internal (ks.take mid) (cs.take (mid + 1)),
        .internal (ks.drop (mid + 1)) (cs.drop (mid + 1)))

/-- `splitChild(parent, index)` (lines 57-85) at the parent level: split
`parent.children[index]` and splice the promoted key into `parent.keys` at
`index` and the new right node into `parent.children` at `index + 1`. -/
def splitChild (maxKeys : Nat) (ks : List α) (cs : List (Node α)) (index : Nat) :
    List α × List (Node α) :=
  let pr := splitNode maxKeys (cs.getI index)
  (spliceIn ks index pr.1, spliceIn (cs.set index pr.2.1) (index + 1) pr.2.2)

omit [LinearOrder α] [Inhabited α] in
theorem sizeOf_take_le (l : List α) (n : Nat) : sizeOf (l.take n) ≤ sizeOf l := by
  induction l generalizing n with
  | nil => simp
  | cons a l ih =>
      cases n with
      | zero =>
          simp only [List.take_zero, List.nil.sizeOf_spec, List.cons.sizeOf_spec]
          omega
      | succ n => simpa using ih n

omit [LinearOrder α] [Inhabited α] in
theorem sizeOf_drop_le (l : List α) (n : Nat) : sizeOf (l.drop n) ≤ sizeOf l := by
  induction l generalizing n with
  | nil => simp
  | cons a l ih =>
      cases n with
      | zero => simp
      | succ n =>
          have := ih n
          simp only [List.drop, List.cons.sizeOf_spec]
          omega

omit [LinearOrder α] [Inhabited α] in
theorem sizeOf_take_le' (l : List (Node α)) (n : Nat) : sizeOf (l.take n) ≤ sizeOf l := by
  induction l generalizing n with
  | nil => simp
  | cons a l ih =>
      cases n with
      | zero =>
          simp only [List.take_zero, List.nil.sizeOf_spec, List.cons.sizeOf_spec]
          omega
      | succ n => simpa using ih n

omit [LinearOrder α] [Inhabited α] in
theorem sizeOf_drop_le' (l : List (Node α)) (n : Nat) : sizeOf (l.drop n) ≤ sizeOf l := by
  induction l generalizing n with
  | nil => simp
  | cons a l ih =>
      cases n with
      | zero => simp
      | succ n =>
          have := ih n
          simp only [List.drop, List.cons.sizeOf_spec]
          omega

omit [LinearOrder α] in
theorem sizeOf_splitNode_left (m : Nat) (n : Node α) :
    sizeOf (splitNode m n).2.1 ≤ sizeOf n := by
  cases n with
  | leaf ks =>
      have := sizeOf_take_le ks ((m + 1) / 2)
      simp [splitNode]; omega
  | internal ks cs =>
      have h1 := sizeOf_take_le ks ((m + 1) / 2)
      have h2 := sizeOf_take_le' cs ((m + 1) / 2 + 1)
      simp [splitNode]; omega

omit [LinearOrder α] in
theorem sizeOf_splitNode_right (m : Nat) (n : Node α) :
    sizeOf (splitNode m n).2.2 ≤ sizeOf n := by
  cases n with
  | leaf ks =>
      have := sizeOf_drop_le ks ((m + 1) / 2)
      simp [splitNode]; omega
  | internal ks cs =>
      have h1 := sizeOf_drop_le ks ((m + 1) / 2 + 1)
      have h2 := sizeOf_drop_le' cs ((m + 1) / 2 + 1)
      simp [splitNode]; omega

omit [LinearOrder α] [Inhabited α] in
theorem sizeOf_getI_lt (cs : List (Node α)) (ks : List α) (i : Nat) :
    sizeOf (cs.getI i) < 1 + sizeOf ks + sizeOf cs := by
  have hk : 1 ≤ sizeOf ks := by cases ks <;> simp
  by_cases h : i < cs.length
  · have hm : cs.getI i ∈ cs := by
      rw [List.getI_eq_getElem _ h]
      exact List.getElem_mem h
    have := List.sizeOf_lt_of_mem hm
    omega
  · rw [List.getI_eq_default _ (Nat.le_of_not_lt h)]
    have hc : 1 ≤ sizeOf cs := by
      cases cs
      · simp
      · simp only [List.cons.sizeOf_spec]
        omega
    simp only [default, instInhabitedNode, Node.leaf.sizeOf_spec, List.nil.sizeOf_spec]
    omega

omit [LinearOrder α] in
theorem dec_splitRight (m : Nat) (ks : List α) (cs : List (Node α)) (i : Nat) :
    sizeOf (splitNode m (cs.getI i)).2.2 < sizeOf (Node.internal ks cs) := by
  have h1 := sizeOf_splitNode_right m (cs.getI i)
  have h2 := sizeOf_getI_lt cs ks i
  simp only [Node.internal.sizeOf_spec]
  omega

omit [LinearOrder α] in
theorem dec_splitLeft (m : Nat) (ks : List α) (cs : List (Node α)) (i : Nat) :
    sizeOf (splitNode m (cs.getI i)).2.1 < sizeOf (Node.internal ks cs) := by
  have h1 := sizeOf_splitNode_left m (cs.getI i)
  have h2 := sizeOf_getI_lt cs ks i
  simp only [Node.internal.sizeOf_spec]
  omega

omit [LinearOrder α] [Inhabited α] in
theorem dec_child (ks : List α) (cs : List (Node α)) (i : Nat) :
    sizeOf (cs.getI i) < sizeOf (Node.internal ks cs) := by
  have h2 := sizeOf_getI_lt cs ks i
  simp only [Node.internal.sizeOf_spec]
  omega

/-- `insertNonFull(node, key)` (lines 35-56).  Leaf: splice the key in at the
sorted position.  Internal: find the child index, split the child first if it
is full (then step right if `key > node.keys[i]`, line 50), and recurse. -/
def insertNonFull (maxKeys : Nat) (key : α) (n : Node α) : Node α :=
  match n with
  | .leaf ks => .leaf (spliceIn ks (insScan key ks) key)
  | .internal ks cs =>
      let i := insScan key ks
      let c := cs.getI i
      if c.keys.length = maxKeys then
        let pr := splitNode maxKeys c
        let ks' := spliceIn ks i pr.1
        let cs' := spliceIn (cs.set i pr.2.1) (i + 1) pr.2.2
        if ks'.getI i < key then
          .internal ks' (cs'.set (i + 1) (insertNonFull maxKeys key pr.2.2))
        else
          .internal ks' (cs'.set i (insertNonFull maxKeys key pr.2.1))
      else
        .internal ks (cs.set i (insertNonFull maxKeys key c))
termination_by sizeOf n
decreasing_by
  · apply dec_splitRight
  · apply dec_splitLeft
  · apply dec_child

/-- `class BPlusTree` (lines 16-20): the fan-out bound and the root. -/
structure BPlusTree (α : Type) where
  maxKeys : Nat
  root : Node α

/-- `new BPlusTree(maxKeys)`: a single empty leaf root. -/
def BPlusTree.mk' (maxKeys : Nat := 4) : BPlusTree α :=
  ⟨maxKeys, .leaf []⟩

/-- `insert(key)` (lines 22-33): insert directly if the root is not full,
otherwise make a new internal root over the old root, split it
(`splitChild(newRoot, 0)`) and insert into the new root. -/
def BPlusTree.insert (t : BPlusTree α) (key : α) : BPlusTree α :=
  if t.root.keys.length < t.maxKeys then
    ⟨t.maxKeys, insertNonFull t.maxKeys key t.root⟩
  else
    let pr := splitChild t.maxKeys [] [t.root] 0
    ⟨t.maxKeys, insertNonFull t.maxKeys key (.internal pr.1 pr.2)⟩

/-- `search(key)` (lines 87-89). -/
def BPlusTree.search (t : BPlusTree α) (key : α) : Bool :=
  searchNode key t.root

/-- `delete(key)` (lines 104-106); the Boolean is the found-and-removed /
not-found status that `_delete` reports on the console. -/
def BPlusTree.delete (t : BPlusTree α) (key : α) : BPlusTree α × Bool :=
  let r := deleteNode key t.root
  (⟨t.maxKeys, r.1⟩, r.2)


/-! ## Elementary properties of the scan loops and of `splice` -/

theorem spliceIn_length {β : Type} (l : List β) (i : Nat) (a : β) :
    (spliceIn l i a).length = l.length + 1 := by
  simp [spliceIn]; omega

theorem spliceIn_perm {β : Type} (l : List β) (i : Nat) (a : β) :
    (spliceIn l i a).Perm (a :: l) := by
  have h := @List.perm_middle _ a (l.take i) (l.drop i)
  simpa [spliceIn] using h

theorem mem_spliceIn {β : Type} (l : List β) (i : Nat) (a : β) (x : β) :
    x ∈ spliceIn l i a ↔ x = a ∨ x ∈ l := by
  rw [(spliceIn_perm l i a).mem_iff]; simp

theorem spliceIn_getI_self [Inhabited β2] (l : List β2) (i : Nat) (a : β2) (h : i ≤ l.length) :
    (spliceIn l i a).getI i = a := by
  rw [List.getI_eq_getElem _ (by rw [spliceIn_length]; omega)]
  simp only [spliceIn]
  rw [List.getElem_append_right (by simp only [List.length_take]; omega)]
  simp [Nat.min_eq_left h]

theorem spliceIn_getI_lt [Inhabited β2] (l : List β2) (i : Nat) (a : β2) (j : Nat)
    (hj : j < i) (hi : i ≤ l.length) : (spliceIn l i a).getI j = l.getI j := by
  rw [List.getI_eq_getElem _ (by rw [spliceIn_length]; omega),
    List.getI_eq_getElem _ (by omega)]
  simp only [spliceIn]
  rw [List.getElem_append_left (by simp only [List.length_take]; omega)]
  simp [List.getElem_take]

theorem spliceIn_getI_ge [Inhabited β2] (l : List β2) (i : Nat) (a : β2) (j : Nat)
    (hj : i ≤ j) (hi : i ≤ l.length) : (spliceIn l i a).getI (j + 1) = l.getI j := by
  by_cases hjl : j < l.length
  · rw [List.getI_eq_getElem _ (by rw [spliceIn_length]; omega),
      List.getI_eq_getElem _ hjl]
    simp only [spliceIn]
    rw [List.getElem_append_right (by simp only [List.length_take]; omega)]
    have hlen : (l.take i).length = i := by simp [Nat.min_eq_left hi]
    simp only [hlen, List.getElem_cons]
    rw [dif_neg (by omega)]
    have hb1 : j + 1 - i - 1 < (l.drop i).length := by
      simp only [List.length_drop]
      omega
    have hidx : (l.drop i)[j + 1 - i - 1] = l[j] := by
      rw [List.getElem_drop]
      exact getElem_congr (by omega)
    exact hidx
  · rw [List.getI_eq_default _ (by rw [spliceIn_length]; omega),
      List.getI_eq_default _ (by omega)]

theorem sorted_spliceIn (l : List α) (i : Nat) (a : α) (hs : l.Sorted (· ≤ ·))
    (ha : ∀ x ∈ l.take i, x ≤ a) (hb : ∀ x ∈ l.drop i, a ≤ x) :
    (spliceIn l i a).Sorted (· ≤ ·) := by
  have hsp : (l.take i ++ l.drop i).Sorted (· ≤ ·) := by
    rwa [List.take_append_drop]
  rw [List.Sorted, spliceIn, List.pairwise_append]
  rw [List.Sorted, List.pairwise_append] at hsp
  refine ⟨hsp.1, ?_, ?_⟩
  · rw [List.pairwise_cons]
    exact ⟨hb, hsp.2.1⟩
  · intro x hx y hy
    rcases List.mem_cons.mp hy with rfl | hy
    · exact ha x hx
    · exact hsp.2.2 x hx y hy

theorem scanIdx_cons (k x : α) (xs : List α) :
    scanIdx k (x :: xs) = if x < k then scanIdx k xs + 1 else 0 := by
  by_cases h : x < k <;> simp [scanIdx, List.takeWhile_cons, h]

theorem scanIdx_le_length (k : α) (ks : List α) : scanIdx k ks ≤ ks.length :=
  (List.takeWhile_sublist _).length_le

/-- The search scan stops at the first index whose key is `≥ key`:
all keys before the scan index are `< key`. -/
theorem scanIdx_lt (k : α) (ks : List α) (j : Nat) (hj : j < scanIdx k ks) :
    ks.getI j < k := by
  induction ks generalizing j with
  | nil => simp [scanIdx] at hj
  | cons x xs ih =>
      rw [scanIdx_cons] at hj
      by_cases hx : x < k
      · rw [if_pos hx] at hj
        cases j with
        | zero => simpa using hx
        | succ j =>
            have := ih j (by omega)
            simpa [List.getI] using this
      · rw [if_neg hx] at hj; omega

/-- ... and the key at the scan index itself (when it exists) is `≥ key`. -/
theorem scanIdx_ge (k : α) (ks : List α) (h : scanIdx k ks < ks.length) :
    k ≤ ks.getI (scanIdx k ks) := by
  induction ks with
  | nil => simp at h
  | cons x xs ih =>
      rw [scanIdx_cons] at h ⊢
      simp only [List.length_cons] at h
      by_cases hx : x < k
      · rw [if_pos hx] at h ⊢
        have := ih (by omega)
        simpa [List.getI] using this
      · rw [if_neg hx]
        simpa [List.getI] using le_of_not_lt hx

theorem rdropWhile_cons_of_neg {β : Type} (p : β → Bool) (x : β) (xs : List β)
    (h : p x = false) : List.rdropWhile p (x :: xs) = x :: List.rdropWhile p xs := by
  rcases eq_or_ne (List.rdropWhile p xs) [] with h0 | h0
  · rw [List.rdropWhile_eq_nil_iff] at h0
    rw [List.rdropWhile, List.reverse_cons, List.dropWhile_append]
    have hd : List.dropWhile p xs.reverse = [] := by
      rw [List.dropWhile_eq_nil_iff]
      intro y hy
      exact h0 y (List.mem_reverse.mp hy)
    simp [hd, h, List.rdropWhile_eq_nil_iff.mpr h0]
  · rw [List.rdropWhile, List.reverse_cons, List.dropWhile_append]
    have hd : ¬(List.dropWhile p xs.reverse).isEmpty := by
      rw [List.isEmpty_iff]
      intro hc
      exact h0 (by rw [List.rdropWhile, hc, List.reverse_nil])
    simp only [if_neg hd]
    rw [List.reverse_append]
    simp [List.rdropWhile]

theorem insScan_cons_lt (k x : α) (xs : List α) (hx : k < x)
    (hs : (x :: xs).Sorted (· ≤ ·)) : insScan k (x :: xs) = 0 := by
  have : ∀ y ∈ x :: xs, k < y := by
    intro y hy
    rcases List.mem_cons.mp hy with rfl | hy
    · exact hx
    · exact lt_of_lt_of_le hx ((List.sorted_cons.mp hs).1 y hy)
  rw [insScan, List.rdropWhile_eq_nil_iff.mpr (by simpa using this)]
  rfl

theorem insScan_cons_le (k x : α) (xs : List α) (hx : x ≤ k) :
    insScan k (x :: xs) = insScan k xs + 1 := by
  rw [insScan, rdropWhile_cons_of_neg _ _ _ (by simpa using not_lt.mpr hx)]
  rfl

theorem insScan_le_length (k : α) (ks : List α) : insScan k ks ≤ ks.length :=
  (List.rdropWhile_prefix _ _).sublist.length_le

/-- On a sorted key list the insert scan finds the upper insertion point:
everything before it is `≤ key`. -/
theorem insScan_mem_take (k : α) (ks : List α) (hs : ks.Sorted (· ≤ ·)) :
    ∀ x ∈ ks.take (insScan k ks), x ≤ k := by
  induction ks with
  | nil => simp
  | cons y ys ih =>
      by_cases hy : k < y
      · rw [insScan_cons_lt k y ys hy hs]
        simp
      · rw [insScan_cons_le k y ys (le_of_not_lt hy)]
        intro x hx
        rcases List.mem_cons.mp (by simpa using hx) with rfl | hx2
        · exact le_of_not_lt hy
        · exact ih (List.sorted_cons.mp hs).2 x hx2

/-- ... and everything from it on is `> key`. -/
theorem insScan_mem_drop (k : α) (ks : List α) (hs : ks.Sorted (· ≤ ·)) :
    ∀ x ∈ ks.drop (insScan k ks), k < x := by
  induction ks with
  | nil => simp
  | cons y ys ih =>
      by_cases hy : k < y
      · rw [insScan_cons_lt k y ys hy hs]
        intro x hx
        rcases List.mem_cons.mp (by simpa using hx) with rfl | hx2
        · exact hy
        · exact lt_of_lt_of_le hy ((List.sorted_cons.mp hs).1 x hx2)
      · rw [insScan_cons_le k y ys (le_of_not_lt hy)]
        intro x hx
        exact ih (List.sorted_cons.mp hs).2 x (by simpa using hx)


/-! ## The shape/order invariant of the trees the program builds -/

/-- `x` lies between the optional lower bound `lo` and upper bound `hi`. -/
def btw (lo hi : Option α) (x : α) : Prop :=
  (∀ b ∈ lo, b ≤ x) ∧ (∀ b ∈ hi, x ≤ b)

/-- Bound on the `i`-th child of an internal node from the left: the parent
bound for the leftmost child, else the `i-1`-st routing key. -/
def lob (lo : Option α) (ks : List α) : Nat → Option α
  | 0 => lo
  | i + 1 => some (ks.getI i)

/-- Bound on the `i`-th child from the right: the `i`-th routing key when it
exists, else the parent bound. -/
def hib (hi : Option α) (ks : List α) (i : Nat) : Option α :=
  if i < ks.length then some (ks.getI i) else hi

/-- `Chained P lo hi ks cs`: the children `cs` interleave the routing keys
`ks` (`|cs| = |ks| + 1`), each child satisfying `P` between its two
neighbouring routing keys (or the outer bounds at the two ends). -/
inductive Chained (P : Option α → Option α → Node α → Prop) :
    Option α → Option α → List α → List (Node α) → Prop where
  | single : ∀ {lo hi : Option α} {c : Node α}, P lo hi c → Chained P lo hi [] [c]
  | cons : ∀ {lo hi : Option α} {k : α} {ks : List α} {c : Node α} {cs : List (Node α)},
      P lo (some k) c → Chained P (some k) hi ks cs →
      Chained P lo hi (k :: ks) (c :: cs)

/-- Well-formedness of a subtree between the key bounds `lo` and `hi`: keys
sorted ascending, at most `m` per node, all keys within the bounds, and the
children of every internal node interleaved with its routing keys.  This is
the invariant §3 of the spec states between operations. -/
inductive WFN (m : Nat) : Option α → Option α → Node α → Prop where
  | leaf : ∀ {lo hi : Option α} {ks : List α}, ks.Sorted (· ≤ ·) → ks.length ≤ m →
      (∀ x ∈ ks, btw lo hi x) → WFN m lo hi (.leaf ks)
  | internal : ∀ {lo hi : Option α} {ks : List α} {cs : List (Node α)},
      ks.Sorted (· ≤ ·) → ks.length ≤ m → (∀ x ∈ ks, btw lo hi x) →
      Chained (WFN m) lo hi ks cs → WFN m lo hi (.internal ks cs)

theorem Chained.length {P : Option α → Option α → Node α → Prop}
    {lo hi : Option α} {ks : List α} {cs : List (Node α)}
    (h : Chained P lo hi ks cs) : cs.length = ks.length + 1 := by
  induction h with
  | single _ => rfl
  | cons _ _ ih => simpa using ih

theorem lob_cons_succ (lo : Option α) (k : α) (ks : List α) (i : Nat) :
    lob lo (k :: ks) (i + 1) = lob (some k) ks i := by
  cases i with
  | zero => simp [lob, List.getI]
  | succ j => simp [lob, List.getI]

theorem hib_cons_succ (hi : Option α) (k : α) (ks : List α) (i : Nat) :
    hib hi (k :: ks) (i + 1) = hib hi ks i := by
  by_cases h : i < ks.length
  · simp [hib, h, List.getI, Nat.succ_lt_succ h]
  · simp [hib, h, fun hc => h (Nat.lt_of_succ_lt_succ hc)]

theorem hib_cons_zero (hi : Option α) (k : α) (ks : List α) :
    hib hi (k :: ks) 0 = some k := by
  simp [hib, List.getI]

theorem Chained.get {P : Option α → Option α → Node α → Prop}
    {lo hi : Option α} {ks : List α} {cs : List (Node α)}
    (h : Chained P lo hi ks cs) (i : Nat) (hi2 : i < cs.length) :
    P (lob lo ks i) (hib hi ks i) (cs.getI i) := by
  induction h generalizing i with
  | single hc =>
      obtain rfl : i = 0 := by simpa [Nat.lt_one_iff] using hi2
      simpa [lob, hib, List.getI] using hc
  | cons hc _ ih =>
      cases i with
      | zero => simpa [lob, hib_cons_zero, List.getI] using hc
      | succ j =>
          rw [lob_cons_succ, hib_cons_succ]
          have := ih j (by simpa using hi2)
          simpa [List.getI] using this

theorem Chained.set {P : Option α → Option α → Node α → Prop}
    {lo hi : Option α} {ks : List α} {cs : List (Node α)} {c2 : Node α}
    (h : Chained P lo hi ks cs) (i : Nat) (hi2 : i < cs.length)
    (hc2 : P (lob lo ks i) (hib hi ks i) c2) :
    Chained P lo hi ks (cs.set i c2) := by
  induction h generalizing i with
  | single hc =>
      obtain rfl : i = 0 := by simpa [Nat.lt_one_iff] using hi2
      simp only [List.set]
      exact .single (by simpa [lob, hib] using hc2)
  | cons hc ht ih =>
      cases i with
      | zero =>
          simp only [List.set]
          exact .cons (by simpa [lob, hib_cons_zero] using hc2) ht
      | succ j =>
          simp only [List.set]
          refine .cons hc (ih j (by simpa using hi2) ?_)
          rw [lob_cons_succ, hib_cons_succ] at hc2
          exact hc2

theorem spliceIn_cons_succ {β : Type} (x : β) (l : List β) (j : Nat) (a : β) :
    spliceIn (x :: l) (j + 1) a = x :: spliceIn l j a := by
  simp [spliceIn]

theorem spliceIn_zero {β : Type} (l : List β) (a : β) :
    spliceIn l 0 a = a :: l := by
  simp [spliceIn]

/-- Replacing the `i`-th child by a split pair `l`, `r` with the promoted
key `p` spliced between them preserves the chained structure. -/
theorem Chained.expand {P : Option α → Option α → Node α → Prop}
    {lo hi : Option α} {ks : List α} {cs : List (Node α)} {p : α} {l r : Node α}
    (h : Chained P lo hi ks cs) (i : Nat) (hi2 : i < cs.length)
    (hl : P (lob lo ks i) (some p) l) (hr : P (some p) (hib hi ks i) r) :
    Chained P lo hi (spliceIn ks i p) (spliceIn (cs.set i l) (i + 1) r) := by
  induction h generalizing i with
  | single hc =>
      obtain rfl : i = 0 := by simpa [Nat.lt_one_iff] using hi2
      simp only [List.set, spliceIn_zero]
      have : spliceIn [l] 1 r = [l, r] := by simp [spliceIn]
      rw [this]
      exact .cons (by simpa [lob] using hl) (.single (by simpa [hib] using hr))
  | cons hc ht ih =>
      cases i with
      | zero =>
          simp only [List.set, spliceIn_zero]
          rw [spliceIn_cons_succ, spliceIn_zero]
          exact .cons (by simpa [lob] using hl)
            (.cons (by simpa [hib_cons_zero] using hr) ht)
      | succ j =>
          simp only [List.set]
          rw [spliceIn_cons_succ, spliceIn_cons_succ]
          refine .cons hc (ih j (by simpa using hi2) ?_ ?_)
          · rw [lob_cons_succ] at hl; exact hl
          · rw [hib_cons_succ] at hr; exact hr


/-! ## The keys of the leaf chain -/

theorem flatKeys_leaf (ks : List α) : flatKeys (Node.leaf ks) = ks := by
  simp [flatKeys]

theorem flatKeys_internal (ks : List α) (cs : List (Node α)) :
    flatKeys (Node.internal ks cs) = (cs.map flatKeys).flatten := by
  rw [flatKeys]
  congr 1
  exact List.attach_map_coe cs flatKeys

omit [LinearOrder α] in
theorem flatten_map_decomp (f : Node α → List α) (cs : List (Node α)) (i : Nat)
    (h : i < cs.length) :
    (cs.map f).flatten =
      ((cs.take i).map f).flatten ++ f (cs.getI i) ++ ((cs.drop (i + 1)).map f).flatten := by
  conv_lhs => rw [← List.take_append_drop i (List.map f cs)]
  rw [List.drop_eq_getElem_cons (by simpa using h), List.getI_eq_getElem _ h]
  simp [List.flatten_append, List.map_take, List.map_drop]

omit [LinearOrder α] in
theorem flatten_map_set (f : Node α → List α) (cs : List (Node α)) (i : Nat) (c2 : Node α)
    (h : i < cs.length) :
    ((cs.set i c2).map f).flatten =
      ((cs.take i).map f).flatten ++ f c2 ++ ((cs.drop (i + 1)).map f).flatten := by
  rw [List.set_eq_take_append_cons_drop, if_pos h]
  simp [List.flatten_append]

omit [LinearOrder α] in
theorem flatten_map_spliceIn (f : Node α → List α) (cs : List (Node α)) (i : Nat) (c2 : Node α) :
    ((spliceIn cs i c2).map f).flatten =
      ((cs.take i).map f).flatten ++ f c2 ++ ((cs.drop i).map f).flatten := by
  simp [spliceIn, List.flatten_append]

theorem btw_of_btw_upper {lo hi : Option α} {k x : α} (h : btw lo (some k) x)
    (hk : btw lo hi k) : btw lo hi x := by
  refine ⟨h.1, fun b hb => le_trans ?_ (hk.2 b hb)⟩
  exact h.2 k rfl

theorem btw_of_btw_lower {lo hi : Option α} {k x : α} (h : btw (some k) hi x)
    (hk : btw lo hi k) : btw lo hi x := by
  refine ⟨fun b hb => le_trans (hk.1 b hb) ?_, h.2⟩
  exact h.1 k rfl

/-- Sortedness of the concatenated leaf chain of a chained children list. -/
theorem chained_flat {m : Nat} {lo hi : Option α} {ks : List α} {cs : List (Node α)}
    (hcl : Chained (WFN m) lo hi ks cs)
    (hk : ks.Sorted (· ≤ ·)) (hbk : ∀ x ∈ ks, btw lo hi x)
    (IH : ∀ c ∈ cs, ∀ lo2 hi2, WFN m lo2 hi2 c →
      (flatKeys c).Sorted (· ≤ ·) ∧ ∀ x ∈ flatKeys c, btw lo2 hi2 x) :
    ((cs.map flatKeys).flatten).Sorted (· ≤ ·) ∧
      ∀ x ∈ (cs.map flatKeys).flatten, btw lo hi x := by
  induction hcl with
  | single hc =>
      have h1 := IH _ (by simp) _ _ hc
      simpa using h1
  | @cons lo hi k ks c cs hc ht ih =>
      have hbtwk : btw lo hi k := hbk k (by simp)
      have hkt : ks.Sorted (· ≤ ·) := (List.sorted_cons.mp hk).2
      have hbkt : ∀ x ∈ ks, btw (some k) hi x := by
        intro x hx
        refine ⟨fun b hb => ?_, (hbk x (by simp [hx])).2⟩
        obtain rfl : k = b := by simpa using hb
        exact (List.sorted_cons.mp hk).1 x hx
      have hrest := ih hkt hbkt (fun c2 hc2 => IH c2 (by simp [hc2]))
      have hhead := IH c (by simp) _ _ hc
      constructor
      · rw [List.map_cons, List.flatten_cons, List.Sorted, List.pairwise_append]
        refine ⟨hhead.1, hrest.1, ?_⟩
        intro x hx y hy
        have hxk : x ≤ k := (hhead.2 x hx).2 k rfl
        have hky : k ≤ y := (hrest.2 y hy).1 k rfl
        exact le_trans hxk hky
      · intro x hx
        rw [List.map_cons, List.flatten_cons, List.mem_append] at hx
        rcases hx with hx | hx
        · exact btw_of_btw_upper (hhead.2 x hx) hbtwk
        · exact btw_of_btw_lower (hrest.2 x hx) hbtwk

theorem wfn_flat_aux : ∀ (N : Nat) (n : Node α), sizeOf n ≤ N → ∀ (m : Nat)
    (lo hi : Option α), WFN m lo hi n →
    (flatKeys n).Sorted (· ≤ ·) ∧ ∀ x ∈ flatKeys n, btw lo hi x := by
  intro N
  induction N with
  | zero =>
      intro n hn
      exfalso
      cases n <;> simp at hn
  | succ N ih =>
      intro n hn m lo hi h
      cases h with
      | leaf hs hm hb => exact ⟨by simpa [flatKeys_leaf] using hs, by simpa [flatKeys_leaf] using hb⟩
      | @internal _ _ ks cs hs hm hb hcl =>
          rw [flatKeys_internal]
          refine chained_flat hcl hs hb ?_
          intro c hc lo2 hi2 hwf
          refine ih c ?_ m lo2 hi2 hwf
          have := List.sizeOf_lt_of_mem hc
          simp only [Node.internal.sizeOf_spec] at hn
          omega

/-- The leaf chain of a well-formed subtree is sorted, and all its keys lie
within the subtree bounds. -/
theorem WFN.flat {m : Nat} {lo hi : Option α} {n : Node α} (h : WFN m lo hi n) :
    (flatKeys n).Sorted (· ≤ ·) ∧ ∀ x ∈ flatKeys n, btw lo hi x :=
  wfn_flat_aux (sizeOf n) n le_rfl m lo hi h


/-! ## What `splitChild` does to a full node -/

theorem headI_drop (l : List α) (i : Nat) (h : i < l.length) :
    (l.drop i).headI = l.getI i := by
  rw [List.drop_eq_getElem_cons h, List.getI_eq_getElem _ h]
  rfl

theorem Chained.split {P : Option α → Option α → Node α → Prop}
    {lo hi : Option α} {ks : List α} {cs : List (Node α)}
    (h : Chained P lo hi ks cs) (i : Nat) (hi2 : i < ks.length) :
    Chained P lo (some (ks.getI i)) (ks.take i) (cs.take (i + 1)) ∧
      Chained P (some (ks.getI i)) hi (ks.drop (i + 1)) (cs.drop (i + 1)) := by
  induction h generalizing i with
  | single hc => simp at hi2
  | @cons lo hi k ks c cs hc ht ih =>
      cases i with
      | zero =>
          refine ⟨?_, ?_⟩
          · simpa [List.getI] using Chained.single hc
          · simpa [List.getI] using ht
      | succ j =>
          have hj : j < ks.length := by simpa using hi2
          refine ⟨?_, ?_⟩
          · simpa [List.getI] using Chained.cons hc (ih j hj).1
          · simpa [List.getI] using (ih j hj).2

/-- Cross inequalities of a sorted list around a split position. -/
theorem sorted_take_drop_le (ks : List α) (i : Nat) (hs : ks.Sorted (· ≤ ·)) :
    ∀ x ∈ ks.take i, ∀ y ∈ ks.drop i, x ≤ y := by
  have h := hs
  rw [← List.take_append_drop i ks, List.Sorted, List.pairwise_append] at h
  exact h.2.2

theorem sorted_drop_head_le (ks : List α) (i : Nat) (hs : ks.Sorted (· ≤ ·))
    (h : i < ks.length) : ∀ y ∈ ks.drop i, ks.getI i ≤ y := by
  have hd : ks.drop i = ks.getI i :: ks.drop (i + 1) := by
    rw [List.drop_eq_getElem_cons h, List.getI_eq_getElem _ h]
  intro y hy
  have hds : (ks.drop i).Sorted (· ≤ ·) := hs.sublist (List.drop_sublist _ _)
  rw [hd] at hds hy
  rcases List.mem_cons.mp hy with rfl | hy2
  · exact le_rfl
  · exact (List.sorted_cons.mp hds).1 y hy2

/-- Specification of `splitNode` on a full well-formed node: the promoted key
sits between the two halves, both halves are well-formed and strictly
smaller than full, and the leaf chain is preserved.  (For a leaf the
promoted key is only copied: it stays in the right half.) -/
theorem splitNode_spec {m : Nat} {lo hi : Option α} {c : Node α}
    (h : WFN m lo hi c) (hfull : c.keys.length = m) (hm : 2 ≤ m) :
    btw lo hi (splitNode m c).1 ∧
      WFN m lo (some (splitNode m c).1) (splitNode m c).2.1 ∧
      WFN m (some (splitNode m c).1) hi (splitNode m c).2.2 ∧
      flatKeys (splitNode m c).2.1 ++ flatKeys (splitNode m c).2.2 = flatKeys c ∧
      (splitNode m c).2.1.keys.length < m ∧ (splitNode m c).2.2.keys.length < m := by
  have hmid1 : 1 ≤ (m + 1) / 2 := by omega
  have hmidm : (m + 1) / 2 < m := by omega
  cases h with
  | @leaf lo hi ks hs hlen hb =>
      simp only [Node.keys] at hfull
      set mid := (m + 1) / 2 with hmiddef
      have hmidlen : mid < ks.length := by omega
      have hpmem : ks.getI mid ∈ ks := by
        rw [List.getI_eq_getElem _ hmidlen]
        exact List.getElem_mem hmidlen
      have hcross := sorted_take_drop_le ks mid hs
      have hdrophead := sorted_drop_head_le ks mid hs hmidlen
      have hdq : ks.drop mid = ks.getI mid :: ks.drop (mid + 1) := by
        rw [List.drop_eq_getElem_cons hmidlen, List.getI_eq_getElem _ hmidlen]
      have hpd : ks.getI mid ∈ ks.drop mid := by
        rw [hdq]
        exact List.mem_cons_self _ _
      simp only [splitNode]
      simp only [← hmiddef]
      rw [headI_drop ks mid hmidlen]
      refine ⟨hb _ hpmem, ?_, ?_, ?_, ?_, ?_⟩
      · refine WFN.leaf (hs.sublist (List.take_sublist _ _)) (by simp; omega) ?_
        intro x hx
        exact ⟨(hb x (List.mem_of_mem_take hx)).1, fun b hb2 => by
          obtain rfl : ks.getI mid = b := by simpa using hb2
          exact hcross x hx _ hpd⟩
      · refine WFN.leaf (hs.sublist (List.drop_sublist _ _)) (by simp; omega) ?_
        intro x hx
        exact ⟨fun b hb2 => by
          obtain rfl : ks.getI mid = b := by simpa using hb2
          exact hdrophead x hx, (hb x (List.mem_of_mem_drop hx)).2⟩
      · simp [flatKeys_leaf]
      · simp [Node.keys]; omega
      · simp [Node.keys]; omega
  | @internal lo hi ks cs hs hlen hb hcl =>
      simp only [Node.keys] at hfull
      set mid := (m + 1) / 2 with hmiddef
      have hmidlen : mid < ks.length := by omega
      have hsplit := hcl.split mid hmidlen
      have hpmem : ks.getI mid ∈ ks := by
        rw [List.getI_eq_getElem _ hmidlen]
        exact List.getElem_mem hmidlen
      have hcross := sorted_take_drop_le ks mid hs
      have hdrophead := sorted_drop_head_le ks mid hs hmidlen
      have hdq : ks.drop mid = ks.getI mid :: ks.drop (mid + 1) := by
        rw [List.drop_eq_getElem_cons hmidlen, List.getI_eq_getElem _ hmidlen]
      have hpd : ks.getI mid ∈ ks.drop mid := by
        rw [hdq]
        exact List.mem_cons_self _ _
      simp only [splitNode]
      simp only [← hmiddef]
      refine ⟨hb _ hpmem, ?_, ?_, ?_, ?_, ?_⟩
      · refine WFN.internal (hs.sublist (List.take_sublist _ _)) (by simp; omega) ?_ hsplit.1
        intro x hx
        exact ⟨(hb x (List.mem_of_mem_take hx)).1, fun b hb2 => by
          obtain rfl : ks.getI mid = b := by simpa using hb2
          exact hcross x hx _ hpd⟩
      · refine WFN.internal (hs.sublist (List.drop_sublist _ _)) (by simp; omega) ?_ hsplit.2
        intro x hx
        have hx2 : x ∈ ks.drop mid := by
          rw [hdq]
          exact List.mem_cons_of_mem _ hx
        exact ⟨fun b hb2 => by
          obtain rfl : ks.getI mid = b := by simpa using hb2
          exact hdrophead x hx2, (hb x (List.mem_of_mem_drop hx)).2⟩
      · rw [flatKeys_internal, flatKeys_internal, flatKeys_internal, List.map_take,
          List.map_drop, ← List.flatten_append, List.take_append_drop]
      · simp [Node.keys]; omega
      · simp [Node.keys]; omega


/-! ## Auxiliary facts for the insertion proof -/

theorem sorted_getI_mono (ks : List α) (hs : ks.Sorted (· ≤ ·)) (j j2 : Nat)
    (h : j ≤ j2) (h2 : j2 < ks.length) : ks.getI j ≤ ks.getI j2 := by
  rw [List.getI_eq_getElem _ (by omega), List.getI_eq_getElem _ h2]
  rcases Nat.eq_or_lt_of_le h with rfl | hlt
  · exact le_rfl
  · exact List.pairwise_iff_getElem.mp hs j j2 (by omega) h2 hlt

theorem insScan_getI_le (k : α) (ks : List α) (hs : ks.Sorted (· ≤ ·)) (j : Nat)
    (hj : j < insScan k ks) : ks.getI j ≤ k := by
  have hjlen : j < ks.length := lt_of_lt_of_le hj (insScan_le_length k ks)
  refine insScan_mem_take k ks hs _ ?_
  rw [List.getI_eq_getElem _ hjlen]
  have hb1 : j < (ks.take (insScan k ks)).length := by
    simp
    omega
  have : ks[j] = (ks.take (insScan k ks))[j] := by
    simp [List.getElem_take]
  rw [this]
  exact List.getElem_mem _

theorem insScan_getI_gt (k : α) (ks : List α) (hs : ks.Sorted (· ≤ ·)) (j : Nat)
    (hj : insScan k ks ≤ j) (hjlen : j < ks.length) : k < ks.getI j := by
  refine insScan_mem_drop k ks hs _ ?_
  rw [List.getI_eq_getElem _ hjlen]
  have hb1 : j - insScan k ks < (ks.drop (insScan k ks)).length := by
    simp
    omega
  have : ks[j] = (ks.drop (insScan k ks))[j - insScan k ks] := by
    rw [List.getElem_drop]
    exact getElem_congr (by omega)
  rw [this]
  exact List.getElem_mem _

/-- The inserted key lies between the bounds of the child the insert scan
descends into. -/
theorem key_btw_child (key : α) (ks : List α) (lo hi : Option α)
    (hs : ks.Sorted (· ≤ ·)) (hk : btw lo hi key) :
    btw (lob lo ks (insScan key ks)) (hib hi ks (insScan key ks)) key := by
  constructor
  · intro b hb
    match hi2 : insScan key ks, hb with
    | 0, hb => exact hk.1 b (by simpa [lob] using hb)
    | j + 1, hb =>
        obtain rfl : ks.getI j = b := by simpa [lob] using hb
        exact insScan_getI_le key ks hs j (by omega)
  · intro b hb
    by_cases hlt : insScan key ks < ks.length
    · obtain rfl : ks.getI (insScan key ks) = b := by simpa [hib, hlt] using hb
      exact le_of_lt (insScan_getI_gt key ks hs _ le_rfl hlt)
    · exact hk.2 b (by simpa [hib, hlt] using hb)

/-- A value between the bounds of the `i`-th child is between the bounds of
the node itself. -/
theorem btw_of_child (x : α) (ks : List α) (lo hi : Option α) (i : Nat)
    (hb : ∀ y ∈ ks, btw lo hi y) (hile : i ≤ ks.length)
    (hx : btw (lob lo ks i) (hib hi ks i) x) : btw lo hi x := by
  constructor
  · intro b hb2
    match i, hile, hx with
    | 0, _, hx => exact hx.1 b (by simpa [lob] using hb2)
    | j + 1, hile, hx =>
        have h1 : ks.getI j ≤ x := hx.1 _ (by simp [lob])
        have h2 : ks.getI j ∈ ks := by
          rw [List.getI_eq_getElem _ (by omega)]
          exact List.getElem_mem _
        exact le_trans ((hb _ h2).1 b hb2) h1
  · intro b hb2
    by_cases hlt : i < ks.length
    · have h1 : x ≤ ks.getI i := hx.2 _ (by simp [hib, hlt])
      have h2 : ks.getI i ∈ ks := by
        rw [List.getI_eq_getElem _ hlt]
        exact List.getElem_mem _
      exact le_trans h1 ((hb _ h2).2 b hb2)
    · exact hx.2 b (by simpa [hib, hlt] using hb2)

theorem perm_insert_middle {β : Type} (A B X Y : List β) (a : β)
    (h : X.Perm (a :: Y)) : (A ++ X ++ B).Perm (a :: (A ++ Y ++ B)) := by
  have h1 : (A ++ X ++ B).Perm (A ++ (a :: Y) ++ B) := (h.append_left A).append_right B
  have h2 : (A ++ (a :: Y) ++ B).Perm (a :: (A ++ Y ++ B)) := by
    have hm := @List.perm_middle _ a A (Y ++ B)
    simp only [List.append_assoc]
    exact hm
  exact h1.trans h2

theorem spliceIn_set_self {β : Type} (L : List β) (i : Nat) (x y : β)
    (h : i ≤ L.length) : (spliceIn L i x).set i y = spliceIn L i y := by
  simp only [spliceIn]
  rw [List.set_append]
  have hlen : (L.take i).length = i := by simp [Nat.min_eq_left h]
  rw [if_neg (by omega), hlen]
  simp

theorem spliceIn_set_lt {β : Type} (L : List β) (i : Nat) (x y : β) (j : Nat)
    (hj : j < i) (h : i ≤ L.length) : (spliceIn L i x).set j y = spliceIn (L.set j y) i x := by
  simp only [spliceIn]
  rw [List.set_append]
  have hlen : (L.take i).length = i := by simp [Nat.min_eq_left h]
  rw [if_pos (by omega)]
  rw [List.set_take, List.drop_set, if_pos hj]

theorem set_take_decomp {β : Type} (L : List β) (i : Nat) (x : β) (h : i < L.length) :
    ((L.set i x).take (i + 1)) = L.take i ++ [x] := by
  rw [List.set_eq_take_append_cons_drop, if_pos h]
  rw [List.take_append_eq_append_take]
  have hlen : (L.take i).length = i := by simp [Nat.min_eq_left (le_of_lt h)]
  rw [List.take_take, hlen]
  simp [Nat.min_eq_left (by omega : i ≤ i + 1)]

theorem set_drop_decomp {β : Type} (L : List β) (i : Nat) (x : β) (h : i < L.length) :
    ((L.set i x).drop (i + 1)) = L.drop (i + 1) := by
  rw [List.set_eq_take_append_cons_drop, if_pos h]
  rw [List.drop_append_eq_append_drop]
  have hlen : (L.take i).length = i := by simp [Nat.min_eq_left (le_of_lt h)]
  rw [hlen]
  simp


theorem flat_split_decomp (cs : List (Node α)) (i : Nat) (h : i < cs.length) (l r : Node α) :
    ((spliceIn (cs.set i l) (i + 1) r).map flatKeys).flatten =
      ((cs.take i).map flatKeys).flatten ++ (flatKeys l ++ (flatKeys r ++
        ((cs.drop (i + 1)).map flatKeys).flatten)) := by
  rw [flatten_map_spliceIn, set_take_decomp _ _ _ h, set_drop_decomp _ _ _ h]
  simp [List.flatten_append]

/-- Splicing the promoted key into the parent keys translates the child
bound functions as expected. -/
theorem lob_spliceIn_self (lo : Option α) (ks : List α) (i : Nat) (p : α)
    (h : i ≤ ks.length) : lob lo (spliceIn ks i p) i = lob lo ks i := by
  cases i with
  | zero => rfl
  | succ j => simp [lob, spliceIn_getI_lt ks (j + 1) p j (by omega) h]

theorem hib_spliceIn_self (hi : Option α) (ks : List α) (i : Nat) (p : α)
    (h : i ≤ ks.length) : hib hi (spliceIn ks i p) i = some p := by
  simp [hib, spliceIn_length, Nat.lt_succ_of_le h, spliceIn_getI_self ks i p h]

theorem lob_spliceIn_succ (lo : Option α) (ks : List α) (i : Nat) (p : α)
    (h : i ≤ ks.length) : lob lo (spliceIn ks i p) (i + 1) = some p := by
  simp [lob, spliceIn_getI_self ks i p h]

theorem hib_spliceIn_succ (hi : Option α) (ks : List α) (i : Nat) (p : α)
    (h : i ≤ ks.length) : hib hi (spliceIn ks i p) (i + 1) = hib hi ks i := by
  by_cases hlt : i < ks.length
  · simp [hib, spliceIn_length, hlt, Nat.succ_lt_succ hlt,
      spliceIn_getI_ge ks i p i le_rfl h]
  · have hi2 : i = ks.length := by omega
    simp [hib, spliceIn_length, hi2]

/-- Sortedness and bounds of the parent keys after splicing the promoted key
in at the scan position. -/
theorem spliceIn_promoted_sorted (key p : α) (ks : List α) (lo hi : Option α)
    (hs : ks.Sorted (· ≤ ·))
    (hp : btw (lob lo ks (insScan key ks)) (hib hi ks (insScan key ks)) p) :
    (spliceIn ks (insScan key ks) p).Sorted (· ≤ ·) := by
  set i := insScan key ks with hidef
  have hile : i ≤ ks.length := insScan_le_length key ks
  refine sorted_spliceIn ks i p hs ?_ ?_
  · intro x hx
    obtain ⟨j, hj, rfl⟩ := List.mem_iff_getElem.mp hx
    have hjlen : j < ks.length := by
      have := List.length_take_le i ks
      omega
    have hx2 : (ks.take i)[j] = ks.getI j := by
      rw [List.getI_eq_getElem _ hjlen]
      simp [List.getElem_take]
    rw [hx2]
    have hji : j < i := by
      have := List.length_take i ks
      omega
    match hi3 : i, hji with
    | jj + 1, hji =>
        have hlast : ks.getI jj ≤ p := hp.1 _ (by simp [hi3, lob])
        exact le_trans (sorted_getI_mono ks hs j jj (by omega) (by omega)) hlast
  · intro x hx
    obtain ⟨j, hj, rfl⟩ := List.mem_iff_getElem.mp hx
    have hx2 : (ks.drop i)[j] = ks.getI (i + j) := by
      rw [List.getI_eq_getElem _ (by simp at hj; omega)]
      rw [List.getElem_drop]
    rw [hx2]
    have hilen : i < ks.length := by simp at hj; omega
    have hfirst : p ≤ ks.getI i := hp.2 _ (by simp [hib, hilen])
    exact le_trans hfirst (sorted_getI_mono ks hs i (i + j) (by omega) (by simp at hj; omega))

/-- Main lemma, by strong induction on the node size: on a non-full
well-formed subtree, `insertNonFull` keeps the subtree well-formed within
the same bounds and adds exactly the inserted key to the leaf chain. -/
theorem insertNonFull_spec_aux (key : α) : ∀ (N : Nat) (n : Node α), sizeOf n ≤ N →
    ∀ (m : Nat) (lo hi : Option α), WFN m lo hi n → btw lo hi key →
      n.keys.length < m → 2 ≤ m →
      WFN m lo hi (insertNonFull m key n) ∧
        (flatKeys (insertNonFull m key n)).Perm (key :: flatKeys n) := by
  intro N
  induction N with
  | zero =>
      intro n hn
      exfalso
      cases n <;> simp at hn
  | succ N ih =>
      intro n hn m lo hi hwf hk hnf hm
      cases n with
      | leaf ks =>
          cases hwf with
          | leaf hs hlen hb =>
              simp only [insertNonFull, flatKeys_leaf]
              simp only [Node.keys] at hnf
              constructor
              · refine WFN.leaf ?_ (by rw [spliceIn_length]; omega) ?_
                · exact sorted_spliceIn ks _ key hs
                    (insScan_mem_take key ks hs)
                    (fun x hx => le_of_lt (insScan_mem_drop key ks hs x hx))
                · intro x hx
                  rcases (mem_spliceIn ks _ key x).mp hx with rfl | hx2
                  · exact hk
                  · exact hb x hx2
              · exact spliceIn_perm ks _ key
      | internal ks cs =>
          cases hwf with
          | internal hs hlen hb hcl =>
              simp only [Node.keys] at hnf
              have hile : insScan key ks ≤ ks.length := insScan_le_length key ks
              have hclen : cs.length = ks.length + 1 := hcl.length
              have hicl : insScan key ks < cs.length := by omega
              have hcwf := hcl.get _ hicl
              have hkb := key_btw_child key ks lo hi hs hk
              have hszc : sizeOf (cs.getI (insScan key ks)) ≤ N := by
                have := dec_child ks cs (insScan key ks)
                simp only [Node.internal.sizeOf_spec] at hn this
                omega
              by_cases hfull : (cs.getI (insScan key ks)).keys.length = m
              · obtain ⟨hpb, hl, hr, hflatc, hlsz, hrsz⟩ := splitNode_spec hcwf hfull hm
                have hpparent := btw_of_child _ ks lo hi _ hb hile hpb
                have hks2sorted := spliceIn_promoted_sorted key _ ks lo hi hs hpb
                have hks2btw : ∀ x ∈ spliceIn ks (insScan key ks) (splitNode m (cs.getI (insScan key ks))).1,
                    btw lo hi x := by
                  intro x hx
                  rcases (mem_spliceIn _ _ _ x).mp hx with rfl | hx2
                  · exact hpparent
                  · exact hb x hx2
                have hchain2 := hcl.expand _ hicl hl hr
                have hgetIP : (spliceIn ks (insScan key ks) (splitNode m (cs.getI (insScan key ks))).1).getI (insScan key ks)
                    = (splitNode m (cs.getI (insScan key ks))).1 := spliceIn_getI_self _ _ _ hile
                have hcslen2 : (spliceIn ((cs.set (insScan key ks) (splitNode m (cs.getI (insScan key ks))).2.1))
                    ((insScan key ks) + 1) (splitNode m (cs.getI (insScan key ks))).2.2).length = cs.length + 1 := by
                  rw [spliceIn_length, List.length_set]
                have hszl : sizeOf (splitNode m (cs.getI (insScan key ks))).2.1 ≤ N := by
                  have := sizeOf_splitNode_left m (cs.getI (insScan key ks))
                  omega
                have hszr : sizeOf (splitNode m (cs.getI (insScan key ks))).2.2 ≤ N := by
                  have := sizeOf_splitNode_right m (cs.getI (insScan key ks))
                  omega
                by_cases hcond : (spliceIn ks (insScan key ks) (splitNode m (cs.getI (insScan key ks))).1).getI (insScan key ks) < key
                · -- the promoted key is below the new key: descend into the right half
                  have hpk : (splitNode m (cs.getI (insScan key ks))).1 < key := by rwa [hgetIP] at hcond
                  have hkbr : btw (some (splitNode m (cs.getI (insScan key ks))).1) (hib hi ks (insScan key ks)) key := by
                    refine ⟨fun b hb2 => ?_, hkb.2⟩
                    obtain rfl : (splitNode m (cs.getI (insScan key ks))).1 = b := by simpa using hb2
                    exact le_of_lt hpk
                  obtain ⟨hrwf2, hrperm⟩ := ih _ hszr m _ _ hr hkbr hrsz hm
                  simp only [insertNonFull, if_pos hfull, if_pos hcond]
                  constructor
                  · refine WFN.internal hks2sorted (by rw [spliceIn_length]; omega) hks2btw ?_
                    refine hchain2.set _ (by rw [hcslen2]; omega) ?_
                    rw [lob_spliceIn_succ _ _ _ _ hile, hib_spliceIn_succ _ _ _ _ hile]
                    exact hrwf2
                  · rw [flatKeys_internal,
                      spliceIn_set_self _ _ _ _ (by rw [List.length_set]; omega),
                      flat_split_decomp _ _ hicl, flatKeys_internal,
                      flatten_map_decomp _ _ _ hicl, ← hflatc]
                    have hp := perm_insert_middle
                      ((((cs.take (insScan key ks)).map flatKeys).flatten) ++ flatKeys (splitNode m (cs.getI (insScan key ks))).2.1)
                      (((cs.drop ((insScan key ks) + 1)).map flatKeys).flatten)
                      (flatKeys (insertNonFull m key (splitNode m (cs.getI (insScan key ks))).2.2))
                      (flatKeys (splitNode m (cs.getI (insScan key ks))).2.2) key hrperm
                    simpa [List.append_assoc] using hp
                · -- the new key is at most the promoted key: descend into the left half
                  have hpk : key ≤ (splitNode m (cs.getI (insScan key ks))).1 := by
                    rw [hgetIP] at hcond
                    exact le_of_not_lt hcond
                  have hkbl : btw (lob lo ks (insScan key ks)) (some (splitNode m (cs.getI (insScan key ks))).1) key := by
                    refine ⟨hkb.1, fun b hb2 => ?_⟩
                    obtain rfl : (splitNode m (cs.getI (insScan key ks))).1 = b := by simpa using hb2
                    exact hpk
                  obtain ⟨hlwf2, hlperm⟩ := ih _ hszl m _ _ hl hkbl hlsz hm
                  simp only [insertNonFull, if_pos hfull, if_neg hcond]
                  constructor
                  · refine WFN.internal hks2sorted (by rw [spliceIn_length]; omega) hks2btw ?_
                    refine hchain2.set _ (by rw [hcslen2]; omega) ?_
                    rw [lob_spliceIn_self _ _ _ _ hile, hib_spliceIn_self _ _ _ _ hile]
                    exact hlwf2
                  · rw [flatKeys_internal,
                      spliceIn_set_lt _ _ _ _ _ (by omega) (by rw [List.length_set]; omega),
                      List.set_set,
                      flat_split_decomp _ _ hicl, flatKeys_internal,
                      flatten_map_decomp _ _ _ hicl, ← hflatc]
                    have hp := perm_insert_middle
                      (((cs.take (insScan key ks)).map flatKeys).flatten)
                      (flatKeys (splitNode m (cs.getI (insScan key ks))).2.2 ++
                        ((cs.drop ((insScan key ks) + 1)).map flatKeys).flatten)
                      (flatKeys (insertNonFull m key (splitNode m (cs.getI (insScan key ks))).2.1))
                      (flatKeys (splitNode m (cs.getI (insScan key ks))).2.1) key hlperm
                    simpa [List.append_assoc] using hp
              · -- non-full child: plain recursive descent
                have hcnf : (cs.getI (insScan key ks)).keys.length < m := by
                  have hle : (cs.getI (insScan key ks)).keys.length ≤ m := by
                    cases hq : cs.getI (insScan key ks) with
                    | leaf ks2 =>
                        rw [hq] at hcwf
                        cases hcwf with
                        | leaf hs2 hlen2 hb2 => simpa [Node.keys] using hlen2
                    | internal ks2 cs2 =>
                        rw [hq] at hcwf
                        cases hcwf with
                        | internal hs2 hlen2 hb2 hcl2 => simpa [Node.keys] using hlen2
                  exact lt_of_le_of_ne hle hfull
                obtain ⟨hwf2, hperm2⟩ := ih _ hszc m _ _ hcwf hkb hcnf hm
                simp only [insertNonFull, if_neg hfull]
                constructor
                · exact WFN.internal hs hlen hb (hcl.set _ hicl hwf2)
                · rw [flatKeys_internal, flatten_map_set _ _ _ _ hicl, flatKeys_internal,
                    flatten_map_decomp _ _ _ hicl]
                  have hp := perm_insert_middle (((cs.take (insScan key ks)).map flatKeys).flatten)
                    (((cs.drop ((insScan key ks) + 1)).map flatKeys).flatten)
                    (flatKeys (insertNonFull m key (cs.getI (insScan key ks))))
                    (flatKeys (cs.getI (insScan key ks))) key hperm2
                  simpa [List.append_assoc] using hp

theorem insertNonFull_spec {m : Nat} {lo hi : Option α} {n : Node α} (key : α)
    (hwf : WFN m lo hi n) (hk : btw lo hi key) (hnf : n.keys.length < m) (hm : 2 ≤ m) :
    WFN m lo hi (insertNonFull m key n) ∧
      (flatKeys (insertNonFull m key n)).Perm (key :: flatKeys n) :=
  insertNonFull_spec_aux key (sizeOf n) n le_rfl m lo hi hwf hk hnf hm


/-! ## The tree-level insert, and the delete/search pair -/

theorem WFN.keys_le {m : Nat} {lo hi : Option α} {n : Node α} (h : WFN m lo hi n) :
    n.keys.length ≤ m := by
  cases h with
  | leaf hs hlen hb => simpa [Node.keys] using hlen
  | internal hs hlen hb hcl => simpa [Node.keys] using hlen

/-- Well-formedness of the whole tree: the root is well-formed with no outer
bounds. -/
def WFT (t : BPlusTree α) : Prop :=
  WFN t.maxKeys none none t.root

theorem btw_none (x : α) : btw none none x := by
  constructor <;> intro b hb <;> simp at hb

theorem insert_spec (t : BPlusTree α) (key : α) (hwf : WFT t) (hm : 2 ≤ t.maxKeys) :
    WFT (t.insert key) ∧ (t.insert key).maxKeys = t.maxKeys ∧
      (flatKeys (t.insert key).root).Perm (key :: flatKeys t.root) := by
  by_cases hfull : t.root.keys.length < t.maxKeys
  · have h := insertNonFull_spec key hwf (btw_none key) hfull hm
    simp only [BPlusTree.insert, if_pos hfull]
    exact ⟨h.1, by trivial, h.2⟩
  · have hlen : t.root.keys.length = t.maxKeys :=
      le_antisymm hwf.keys_le (le_of_not_lt hfull)
    obtain ⟨hpb, hl, hr, hflatc, hlsz, hrsz⟩ := splitNode_spec hwf hlen hm
    simp only [BPlusTree.insert, if_neg hfull]
    have hroot : splitChild t.maxKeys [] [t.root] 0 =
        ([(splitNode t.maxKeys t.root).1],
          [(splitNode t.maxKeys t.root).2.1, (splitNode t.maxKeys t.root).2.2]) := by
      simp [splitChild, spliceIn, List.getI]
    rw [hroot]
    have hwf2 : WFN t.maxKeys none none
        (Node.internal [(splitNode t.maxKeys t.root).1]
          [(splitNode t.maxKeys t.root).2.1, (splitNode t.maxKeys t.root).2.2]) := by
      refine WFN.internal (by simp) (by simp; omega) ?_ ?_
      · intro x hx
        exact btw_none x
      · refine Chained.cons ?_ (Chained.single ?_)
        · exact hl
        · exact hr
    have hnf2 : (Node.internal [(splitNode t.maxKeys t.root).1]
        [(splitNode t.maxKeys t.root).2.1, (splitNode t.maxKeys t.root).2.2]).keys.length
          < t.maxKeys := by
      simp [Node.keys]; omega
    have h := insertNonFull_spec key hwf2 (btw_none key) hnf2 hm
    refine ⟨h.1, by trivial, ?_⟩
    refine h.2.trans ?_
    have hfl : flatKeys (Node.internal [(splitNode t.maxKeys t.root).1]
        [(splitNode t.maxKeys t.root).2.1, (splitNode t.maxKeys t.root).2.2])
          = flatKeys t.root := by
      rw [flatKeys_internal, ← hflatc]
      simp
    rw [hfl]

theorem set_getI_self (cs : List (Node α)) (i : Nat) (h : i < cs.length) :
    cs.set i (cs.getI i) = cs := by
  rw [List.getI_eq_getElem _ h]
  apply List.ext_getElem
  · simp
  · intro j hj hj2
    simp only [List.getElem_set]
    rcases eq_or_ne i j with rfl | hne
    · simp
    · rw [if_neg hne]

/-- Unfolds `_delete` at an internal node: descend into `children[i]` for
the scan index `i` (the out-of-range branch is the spot where the JS
program would crash; it never runs on the trees the program builds). -/
theorem deleteNode_internal (key : α) (ks : List α) (cs : List (Node α)) :
    deleteNode key (Node.internal ks cs) =
      match cs[scanIdx key ks]? with
      | some c => (Node.internal ks (cs.set (scanIdx key ks) (deleteNode key c).1),
          (deleteNode key c).2)
      | none => (Node.internal ks cs, false) := by
  simp only [deleteNode]
  by_cases h : scanIdx key ks < cs.length
  · have h2 : cs[scanIdx key ks]? = some cs[scanIdx key ks] := List.getElem?_eq_getElem h
    rw [h2]
    have h3 : (cs.attach.map fun c => deleteNode key c.1)[scanIdx key ks]? =
        some (deleteNode key cs[scanIdx key ks]) := by
      rw [List.getElem?_map]
      rw [List.getElem?_eq_getElem (by simpa using h)]
      rw [List.getElem_attach]
      rfl
    simp only [h3]
  · have h2 : cs[scanIdx key ks]? = none := List.getElem?_eq_none (by omega)
    rw [h2]
    have h3 : (cs.attach.map fun c => deleteNode key c.1)[scanIdx key ks]? = none :=
      List.getElem?_eq_none (by simp; omega)
    simp only [h3]

/-- Unfolds `_search` at an internal node, same descent as `_delete`. -/
theorem searchNode_internal (key : α) (ks : List α) (cs : List (Node α)) :
    searchNode key (Node.internal ks cs) =
      match cs[scanIdx key ks]? with
      | some c => searchNode key c
      | none => false := by
  simp only [searchNode]
  by_cases h : scanIdx key ks < cs.length
  · have h2 : cs[scanIdx key ks]? = some cs[scanIdx key ks] := List.getElem?_eq_getElem h
    rw [h2, List.getD_eq_getElem?_getD, List.getElem?_map,
      List.getElem?_eq_getElem (by simpa using h), List.getElem_attach]
    rfl
  · have h2 : cs[scanIdx key ks]? = none := List.getElem?_eq_none (by omega)
    rw [h2, List.getD_eq_getElem?_getD, List.getElem?_map,
      List.getElem?_eq_none (by simp; omega)]
    rfl

/-- The full specification of `_delete`: when it reports not-found the tree
is unchanged; when it reports found-and-removed exactly one occurrence of
the key left the leaf chain; and well-formedness is preserved. -/
theorem deleteNode_spec (key : α) : ∀ (N : Nat) (n : Node α), sizeOf n ≤ N →
    ((deleteNode key n).2 = false → (deleteNode key n).1 = n) ∧
      ((deleteNode key n).2 = true →
        (flatKeys n).Perm (key :: flatKeys (deleteNode key n).1)) ∧
      ∀ (m : Nat) (lo hi : Option α), WFN m lo hi n → WFN m lo hi (deleteNode key n).1 := by
  intro N
  induction N with
  | zero =>
      intro n hn
      exfalso
      cases n <;> simp at hn
  | succ N ih =>
      intro n hn
      cases n with
      | leaf ks =>
          by_cases hmem : key ∈ ks
          · simp only [deleteNode, if_pos hmem]
            refine ⟨by simp, ?_, ?_⟩
            · intro _
              simpa [flatKeys_leaf] using List.perm_cons_erase hmem
            · intro m lo hi hwf
              cases hwf with
              | leaf hs hlen hb =>
                  refine WFN.leaf (hs.sublist (List.erase_sublist key ks)) ?_ ?_
                  · exact le_trans (List.erase_sublist key ks).length_le hlen
                  · intro x hx
                    exact hb x (List.mem_of_mem_erase hx)
          · simp only [deleteNode, if_neg hmem]
            exact ⟨by simp, by simp, fun m lo hi hwf => hwf⟩
      | internal ks cs =>
          rw [deleteNode_internal]
          by_cases h : scanIdx key ks < cs.length
          · have h2 : cs[scanIdx key ks]? = some (cs.getI (scanIdx key ks)) := by
              rw [List.getElem?_eq_getElem h, List.getI_eq_getElem _ h]
            rw [h2]
            have hszc : sizeOf (cs.getI (scanIdx key ks)) ≤ N := by
              have := dec_child ks cs (scanIdx key ks)
              simp only [Node.internal.sizeOf_spec] at hn this
              omega
            obtain ⟨hun, hperm, hwfp⟩ := ih _ hszc
            refine ⟨?_, ?_, ?_⟩
            · intro hfalse
              simp only at hfalse ⊢
              rw [hun hfalse, set_getI_self cs _ h]
            · intro htrue
              simp only at htrue ⊢
              rw [flatKeys_internal, flatKeys_internal,
                flatten_map_decomp _ _ _ h, flatten_map_set _ _ _ _ h]
              have hp := perm_insert_middle
                (((cs.take (scanIdx key ks)).map flatKeys).flatten)
                (((cs.drop (scanIdx key ks + 1)).map flatKeys).flatten)
                (flatKeys (cs.getI (scanIdx key ks)))
                (flatKeys (deleteNode key (cs.getI (scanIdx key ks))).1)
                key (hperm htrue)
              simpa [List.append_assoc] using hp
            · intro m lo hi hwf
              cases hwf with
              | internal hs hlen hb hcl =>
                  exact WFN.internal hs hlen hb
                    (hcl.set _ h (hwfp m _ _ (hcl.get _ h)))
          · have h2 : cs[scanIdx key ks]? = none := List.getElem?_eq_none (by omega)
            rw [h2]
            exact ⟨by simp, by simp, fun m lo hi hwf => hwf⟩


/-- `_delete` reports found-and-removed exactly when `_search` returns true:
both use the same scan index at every internal node and the same exact-match
test at the leaf they reach. -/
theorem deleteNode_status_eq_search (key : α) : ∀ (N : Nat) (n : Node α), sizeOf n ≤ N →
    (deleteNode key n).2 = searchNode key n := by
  intro N
  induction N with
  | zero =>
      intro n hn
      exfalso
      cases n <;> simp at hn
  | succ N ih =>
      intro n hn
      cases n with
      | leaf ks =>
          by_cases hmem : key ∈ ks
          · simp [deleteNode, searchNode, hmem]
          · simp [deleteNode, searchNode, hmem]
      | internal ks cs =>
          rw [deleteNode_internal, searchNode_internal]
          by_cases h : scanIdx key ks < cs.length
          · rw [List.getElem?_eq_getElem h]
            have hszc : sizeOf cs[scanIdx key ks] ≤ N := by
              have := List.sizeOf_lt_of_mem (List.getElem_mem h)
              simp only [Node.internal.sizeOf_spec] at hn
              omega
            exact ih _ hszc
          · rw [List.getElem?_eq_none (by omega)]

/-- Deleting a key that is in no leaf leaves the node exactly unchanged and
reports not-found. -/
theorem deleteNode_not_present (key : α) : ∀ (N : Nat) (n : Node α), sizeOf n ≤ N →
    key ∉ flatKeys n → deleteNode key n = (n, false) := by
  intro N
  induction N with
  | zero =>
      intro n hn
      exfalso
      cases n <;> simp at hn
  | succ N ih =>
      intro n hn hkey
      cases n with
      | leaf ks =>
          rw [flatKeys_leaf] at hkey
          simp [deleteNode, hkey]
      | internal ks cs =>
          rw [deleteNode_internal]
          by_cases h : scanIdx key ks < cs.length
          · rw [List.getElem?_eq_getElem h]
            have hszc : sizeOf cs[scanIdx key ks] ≤ N := by
              have := List.sizeOf_lt_of_mem (List.getElem_mem h)
              simp only [Node.internal.sizeOf_spec] at hn
              omega
            have hnotin : key ∉ flatKeys cs[scanIdx key ks] := by
              intro hc
              apply hkey
              rw [flatKeys_internal, List.mem_flatten]
              exact ⟨flatKeys cs[scanIdx key ks],
                List.mem_map_of_mem flatKeys (List.getElem_mem h), hc⟩
            have hrec := ih _ hszc hnotin
            dsimp only
            rw [hrec]
            simp only [Prod.mk.injEq]
            refine ⟨?_, by trivial⟩
            congr 1
            have : cs.getI (scanIdx key ks) = cs[scanIdx key ks] := List.getI_eq_getElem _ h
            rw [← this]
            exact set_getI_self cs _ h
          · rw [List.getElem?_eq_none (by omega)]


/-! ## Sequences of operations issued against one tree -/

/-- A single index operation issued by the shell/loader collaborators. -/
inductive Op (α : Type) where
  | ins (key : α) : Op α
  | del (key : α) : Op α

/-- One step: apply an operation to the tree while tracking the list of
inserted keys whose deletions were *not* reported as found-and-removed
(one occurrence is removed exactly when `delete` reports success). -/
def applyOp (s : BPlusTree α × List α) : Op α → BPlusTree α × List α
  | .ins key => (s.1.insert key, key :: s.2)
  | .del key =>
      let r := s.1.delete key
      (r.1, if r.2 then s.2.erase key else s.2)

/-- Run a finite sequence of operations on a fresh tree with the given
`max_keys`. -/
def runOps (m : Nat) (ops : List (Op α)) : BPlusTree α × List α :=
  ops.foldl applyOp (BPlusTree.mk' m, [])

theorem runOps_aux (m : Nat) (hm : 2 ≤ m) : ∀ (ops : List (Op α))
    (s : BPlusTree α × List α), WFT s.1 → s.1.maxKeys = m →
    (flatKeys s.1.root).Perm s.2 →
    WFT (ops.foldl applyOp s).1 ∧ (ops.foldl applyOp s).1.maxKeys = m ∧
      (flatKeys (ops.foldl applyOp s).1.root).Perm (ops.foldl applyOp s).2 := by
  intro ops
  induction ops with
  | nil =>
      intro s h1 h2 h3
      exact ⟨h1, h2, h3⟩
  | cons op ops ih =>
      intro s h1 h2 h3
      rw [List.foldl_cons]
      cases op with
      | ins key =>
          obtain ⟨hw, hmk, hp⟩ := insert_spec s.1 key h1 (by omega)
          exact ih _ hw (by dsimp only [applyOp]; rw [hmk, h2]) (hp.trans (h3.cons key))
      | del key =>
          obtain ⟨hun, hperm, hwfp⟩ := deleteNode_spec key (sizeOf s.1.root) s.1.root le_rfl
          refine ih _ ?_ ?_ ?_
          · exact hwfp _ _ _ h1
          · exact h2
          · simp only [applyOp, BPlusTree.delete]
            by_cases hst : (deleteNode key s.1.root).2 = true
            · rw [if_pos hst]
              have h4 : (s.2.erase key).Perm ((flatKeys s.1.root).erase key) :=
                (h3.symm).erase key
              have h5 : ((flatKeys s.1.root).erase key).Perm
                  ((key :: flatKeys (deleteNode key s.1.root).1).erase key) :=
                (hperm hst).erase key
              rw [List.erase_cons_head] at h5
              exact (h4.trans h5).symm
            · rw [if_neg hst]
              rw [hun (by rwa [Bool.not_eq_true] at hst)]
              exact h3

/-- After any finite sequence of inserts and deletes, the tree is
well-formed and its leaf chain is a permutation of the tracked multiset. -/
theorem runOps_inv (m : Nat) (hm : 2 ≤ m) (ops : List (Op α)) :
    WFT (runOps m ops).1 ∧ (runOps m ops).1.maxKeys = m ∧
      (flatKeys (runOps m ops).1.root).Perm (runOps m ops).2 := by
  refine runOps_aux m hm ops _ ?_ rfl ?_
  · exact WFN.leaf (by simp) (by simp) (by simp)
  · simp [BPlusTree.mk', flatKeys_leaf]

/-! ## Per-node structure after any sequence of operations -/

theorem allNodes_internal (ks : List α) (cs : List (Node α)) :
    allNodes (Node.internal ks cs) = Node.internal ks cs :: (cs.map allNodes).flatten := by
  rw [allNodes]
  congr 2
  exact List.attach_map_coe cs allNodes

theorem Chained.mem_wfn {m : Nat} {lo hi : Option α} {ks : List α} {cs : List (Node α)}
    {c : Node α} (h : Chained (WFN m) lo hi ks cs) (hc : c ∈ cs) :
    ∃ lo2 hi2, WFN m lo2 hi2 c := by
  induction h with
  | single h2 =>
      rcases List.mem_singleton.mp hc with rfl
      exact ⟨_, _, h2⟩
  | cons h2 ht ih =>
      rcases List.mem_cons.mp hc with rfl | hc2
      · exact ⟨_, _, h2⟩
      · exact ih hc2

theorem wfn_allNodes : ∀ (N : Nat) (n : Node α), sizeOf n ≤ N →
    ∀ (m : Nat) (lo hi : Option α), WFN m lo hi n →
    ∀ x ∈ allNodes n, (Node.keys x).Sorted (· ≤ ·) ∧ x.keys.length ≤ m ∧
      (x.isLeaf = false → x.children.length = x.keys.length + 1) := by
  intro N
  induction N with
  | zero =>
      intro n hn
      exfalso
      cases n <;> simp at hn
  | succ N ih =>
      intro n hn m lo hi hwf x hx
      cases n with
      | leaf ks =>
          rw [allNodes] at hx
          rcases List.mem_singleton.mp hx with rfl
          cases hwf with
          | leaf hs hlen hb =>
              exact ⟨hs, by simpa [Node.keys] using hlen, by simp [Node.isLeaf]⟩
      | internal ks cs =>
          rw [allNodes_internal] at hx
          cases hwf with
          | internal hs hlen hb hcl =>
              rcases List.mem_cons.mp hx with rfl | hx2
              · refine ⟨hs, by simpa [Node.keys] using hlen, ?_⟩
                intro _
                simp only [Node.children, Node.keys]
                exact hcl.length
              · rw [List.mem_flatten] at hx2
                obtain ⟨l2, hl2, hxl2⟩ := hx2
                obtain ⟨c, hc, rfl⟩ := List.mem_map.mp hl2
                obtain ⟨lo2, hi2, hcwf⟩ := hcl.mem_wfn hc
                have hszc : sizeOf c ≤ N := by
                  have := List.sizeOf_lt_of_mem hc
                  simp only [Node.internal.sizeOf_spec] at hn
                  omega
                exact ih c hszc m lo2 hi2 hcwf x hxl2


/-! ## Height and balance -/

/-- All leaves at the same depth: every child of an internal node is
balanced and all children have one common height. -/
inductive Balanced : Node α → Prop where
  | leaf (ks : List α) : Balanced (.leaf ks)
  | internal (ks : List α) (cs : List (Node α)) (h : Nat) :
      (∀ c ∈ cs, Balanced c) → (∀ c ∈ cs, height c = h) →
      Balanced (.internal ks cs)

theorem height_leaf (ks : List α) : height (Node.leaf ks) = 1 := by
  simp [height]

theorem height_internal (ks : List α) (cs : List (Node α)) :
    height (Node.internal ks cs) = (cs.map height).foldr max 0 + 1 := by
  rw [height]
  congr 2
  exact List.attach_map_coe cs height

omit [LinearOrder α] [Inhabited α] in
theorem foldr_max_const (h : Nat) : ∀ (l : List Nat), (∀ x ∈ l, x = h) → l ≠ [] →
    l.foldr max 0 = h := by
  intro l
  induction l with
  | nil => intro _ hne; exact absurd rfl hne
  | cons x xs ih =>
      intro hx _
      rcases eq_or_ne xs [] with rfl | hne
      · simpa using hx x (by simp)
      · rw [List.foldr_cons, ih (fun y hy => hx y (by simp [hy])) hne,
          hx x (by simp)]
        exact Nat.max_self h

theorem height_uniform (ks : List α) (cs : List (Node α)) (h : Nat) (hne : cs ≠ [])
    (hh : ∀ c ∈ cs, height c = h) : height (Node.internal ks cs) = h + 1 := by
  rw [height_internal, foldr_max_const h]
  · intro x hx
    obtain ⟨c, hc, rfl⟩ := List.mem_map.mp hx
    exact hh c hc
  · simpa using hne

omit [LinearOrder α] [Inhabited α] in
theorem mem_of_mem_set {β : Type} (L : List β) (i : Nat) (y x : β)
    (hx : x ∈ L.set i y) : x = y ∨ x ∈ L := by
  by_cases h : i < L.length
  · rw [List.set_eq_take_append_cons_drop, if_pos h] at hx
    rcases List.mem_append.mp hx with hx2 | hx2
    · exact Or.inr (List.mem_of_mem_take hx2)
    · rcases List.mem_cons.mp hx2 with rfl | hx3
      · exact Or.inl rfl
      · exact Or.inr (List.mem_of_mem_drop hx3)
  · rw [List.set_eq_take_append_cons_drop, if_neg h] at hx
    exact Or.inr hx

/-- Both halves of a full balanced node keep its height and stay balanced
(the child-count invariant guarantees the right half is nonempty). -/
theorem splitNode_hb {m : Nat} {lo hi : Option α} {n : Node α}
    (hw : WFN m lo hi n) (hb : Balanced n) (hm : 2 ≤ m) (hfull : m ≤ n.keys.length) :
    Balanced (splitNode m n).2.1 ∧ Balanced (splitNode m n).2.2 ∧
      height (splitNode m n).2.1 = height n ∧ height (splitNode m n).2.2 = height n := by
  cases hb with
  | leaf ks =>
      simp only [splitNode]
      exact ⟨Balanced.leaf _, Balanced.leaf _, by rw [height_leaf, height_leaf],
        by rw [height_leaf, height_leaf]⟩
  | internal ks cs h hbal hh =>
      simp only [Node.keys] at hfull
      have hclen : cs.length = ks.length + 1 := by
        cases hw with
        | internal hs hlen hb2 hcl => exact hcl.length
      have hmidm : (m + 1) / 2 < m := by omega
      have hne1 : cs.take ((m + 1) / 2 + 1) ≠ [] := by
        have : (cs.take ((m + 1) / 2 + 1)).length = min ((m + 1) / 2 + 1) cs.length := by
          simp
        intro hc
        rw [hc] at this
        simp at this
        omega
      have hne2 : cs.drop ((m + 1) / 2 + 1) ≠ [] := by
        have : (cs.drop ((m + 1) / 2 + 1)).length = cs.length - ((m + 1) / 2 + 1) := by
          simp
        intro hc
        rw [hc] at this
        simp at this
        omega
      have hne0 : cs ≠ [] := by
        intro hc
        rw [hc] at hclen
        simp at hclen
      simp only [splitNode]
      refine ⟨?_, ?_, ?_, ?_⟩
      · exact Balanced.internal _ _ h (fun c hc => hbal c (List.mem_of_mem_take hc))
          (fun c hc => hh c (List.mem_of_mem_take hc))
      · exact Balanced.internal _ _ h (fun c hc => hbal c (List.mem_of_mem_drop hc))
          (fun c hc => hh c (List.mem_of_mem_drop hc))
      · rw [height_uniform _ _ h hne1 (fun c hc => hh c (List.mem_of_mem_take hc)),
          height_uniform _ _ h hne0 hh]
      · rw [height_uniform _ _ h hne2 (fun c hc => hh c (List.mem_of_mem_drop hc)),
          height_uniform _ _ h hne0 hh]


theorem getI_mem (cs : List (Node α)) (i : Nat) (h : i < cs.length) : cs.getI i ∈ cs := by
  rw [List.getI_eq_getElem _ h]
  exact List.getElem_mem h

/-- `insertNonFull` never changes the height of a (non-full, well-formed,
balanced) subtree, and keeps it balanced: only the root split grows the
tree. -/
theorem insertNonFull_hb (key : α) : ∀ (N : Nat) (n : Node α), sizeOf n ≤ N →
    ∀ (m : Nat) (lo hi : Option α), WFN m lo hi n → Balanced n →
      n.keys.length < m → 2 ≤ m →
      height (insertNonFull m key n) = height n ∧ Balanced (insertNonFull m key n) := by
  intro N
  induction N with
  | zero =>
      intro n hn
      exfalso
      cases n <;> simp at hn
  | succ N ih =>
      intro n hn m lo hi hwf hbal hnf hm
      cases n with
      | leaf ks =>
          simp only [insertNonFull]
          exact ⟨by rw [height_leaf, height_leaf], Balanced.leaf _⟩
      | internal ks cs =>
          cases hbal with
          | internal _ _ h hbalc hh =>
              cases hwf with
              | internal hs hlen hb hcl =>
                  simp only [Node.keys] at hnf
                  have hile : insScan key ks ≤ ks.length := insScan_le_length key ks
                  have hclen : cs.length = ks.length + 1 := hcl.length
                  have hicl : insScan key ks < cs.length := by omega
                  have hcwf := hcl.get _ hicl
                  have hbc := hbalc _ (getI_mem cs _ hicl)
                  have hhc := hh _ (getI_mem cs _ hicl)
                  have hne0 : cs ≠ [] := by
                    intro hc
                    rw [hc] at hclen
                    simp at hclen
                  have hheight : height (Node.internal ks cs) = h + 1 :=
                    height_uniform _ _ h hne0 hh
                  have hszc : sizeOf (cs.getI (insScan key ks)) ≤ N := by
                    have := dec_child ks cs (insScan key ks)
                    simp only [Node.internal.sizeOf_spec] at hn this
                    omega
                  by_cases hfull : (cs.getI (insScan key ks)).keys.length = m
                  · obtain ⟨hpb, hl, hr, hflatc, hlsz, hrsz⟩ := splitNode_spec hcwf hfull hm
                    obtain ⟨hbl, hbr, hhl, hhr⟩ := splitNode_hb hcwf hbc hm (le_of_eq hfull.symm)
                    have hszl : sizeOf (splitNode m (cs.getI (insScan key ks))).2.1 ≤ N := by
                      have := sizeOf_splitNode_left m (cs.getI (insScan key ks))
                      omega
                    have hszr : sizeOf (splitNode m (cs.getI (insScan key ks))).2.2 ≤ N := by
                      have := sizeOf_splitNode_right m (cs.getI (insScan key ks))
                      omega
                    by_cases hcond : (spliceIn ks (insScan key ks) (splitNode m (cs.getI (insScan key ks))).1).getI (insScan key ks) < key
                    · obtain ⟨hhr2, hbr2⟩ := ih _ hszr m _ _ hr hbr hrsz hm
                      simp only [insertNonFull, if_pos hfull, if_pos hcond]
                      have hmem : ∀ c2 ∈ (spliceIn (cs.set (insScan key ks) (splitNode m (cs.getI (insScan key ks))).2.1)
                          ((insScan key ks) + 1) (splitNode m (cs.getI (insScan key ks))).2.2).set ((insScan key ks) + 1)
                          (insertNonFull m key (splitNode m (cs.getI (insScan key ks))).2.2),
                          height c2 = h ∧ Balanced c2 := by
                        intro c2 hc2
                        rw [spliceIn_set_self _ _ _ _ (by rw [List.length_set]; omega)] at hc2
                        rcases (mem_spliceIn _ _ _ _).mp hc2 with rfl | hc3
                        · exact ⟨by rw [hhr2, hhr, hhc], hbr2⟩
                        · rcases mem_of_mem_set _ _ _ _ hc3 with rfl | hc4
                          · exact ⟨by rw [hhl, hhc], hbl⟩
                          · exact ⟨hh _ hc4, hbalc _ hc4⟩
                      have hne3 : (spliceIn (cs.set (insScan key ks) (splitNode m (cs.getI (insScan key ks))).2.1)
                          ((insScan key ks) + 1) (splitNode m (cs.getI (insScan key ks))).2.2).set ((insScan key ks) + 1)
                          (insertNonFull m key (splitNode m (cs.getI (insScan key ks))).2.2) ≠ [] := by
                        intro hc
                        have h6 := congrArg List.length hc
                        rw [List.length_set, spliceIn_length] at h6
                        simp at h6
                      constructor
                      · rw [height_uniform _ _ h hne3 (fun c2 hc2 => (hmem c2 hc2).1), hheight]
                      · exact Balanced.internal _ _ h (fun c2 hc2 => (hmem c2 hc2).2)
                          (fun c2 hc2 => (hmem c2 hc2).1)
                    · obtain ⟨hhl2, hbl2⟩ := ih _ hszl m _ _ hl hbl hlsz hm
                      simp only [insertNonFull, if_pos hfull, if_neg hcond]
                      have hmem : ∀ c2 ∈ (spliceIn (cs.set (insScan key ks) (splitNode m (cs.getI (insScan key ks))).2.1)
                          ((insScan key ks) + 1) (splitNode m (cs.getI (insScan key ks))).2.2).set (insScan key ks)
                          (insertNonFull m key (splitNode m (cs.getI (insScan key ks))).2.1),
                          height c2 = h ∧ Balanced c2 := by
                        intro c2 hc2
                        rw [spliceIn_set_lt _ _ _ _ _ (by omega) (by rw [List.length_set]; omega),
                          List.set_set] at hc2
                        rcases (mem_spliceIn _ _ _ _).mp hc2 with rfl | hc3
                        · exact ⟨by rw [hhr, hhc], hbr⟩
                        · rcases mem_of_mem_set _ _ _ _ hc3 with rfl | hc4
                          · exact ⟨by rw [hhl2, hhl, hhc], hbl2⟩
                          · exact ⟨hh _ hc4, hbalc _ hc4⟩
                      have hne3 : (spliceIn (cs.set (insScan key ks) (splitNode m (cs.getI (insScan key ks))).2.1)
                          ((insScan key ks) + 1) (splitNode m (cs.getI (insScan key ks))).2.2).set (insScan key ks)
                          (insertNonFull m key (splitNode m (cs.getI (insScan key ks))).2.1) ≠ [] := by
                        intro hc
                        have h6 := congrArg List.length hc
                        rw [List.length_set, spliceIn_length] at h6
                        simp at h6
                      constructor
                      · rw [height_uniform _ _ h hne3 (fun c2 hc2 => (hmem c2 hc2).1), hheight]
                      · exact Balanced.internal _ _ h (fun c2 hc2 => (hmem c2 hc2).2)
                          (fun c2 hc2 => (hmem c2 hc2).1)
                  · have hcnf : (cs.getI (insScan key ks)).keys.length < m :=
                      lt_of_le_of_ne hcwf.keys_le hfull
                    obtain ⟨hh2, hb2⟩ := ih _ hszc m _ _ hcwf hbc hcnf hm
                    simp only [insertNonFull, if_neg hfull]
                    have hmem : ∀ c2 ∈ cs.set (insScan key ks) (insertNonFull m key (cs.getI (insScan key ks))),
                        height c2 = h ∧ Balanced c2 := by
                      intro c2 hc2
                      rcases mem_of_mem_set _ _ _ _ hc2 with rfl | hc3
                      · exact ⟨by rw [hh2, hhc], hb2⟩
                      · exact ⟨hh _ hc3, hbalc _ hc3⟩
                    have hne3 : cs.set (insScan key ks) (insertNonFull m key (cs.getI (insScan key ks))) ≠ [] := by
                      intro hc
                      have h6 := congrArg List.length hc
                      rw [List.length_set] at h6
                      simp at h6
                      exact hne0 h6
                    constructor
                    · rw [height_uniform _ _ h hne3 (fun c2 hc2 => (hmem c2 hc2).1), hheight]
                    · exact Balanced.internal _ _ h (fun c2 hc2 => (hmem c2 hc2).2)
                        (fun c2 hc2 => (hmem c2 hc2).1)


omit [LinearOrder α] [Inhabited α] in
theorem set_getElem_self {β : Type} (L : List β) (i : Nat) (h : i < L.length) :
    L.set i L[i] = L := by
  apply List.ext_getElem
  · simp
  · intro j hj hj2
    simp only [List.getElem_set]
    rcases eq_or_ne i j with rfl | hne
    · simp
    · rw [if_neg hne]

/-- One `insert` call: the height grows by exactly one when the root is
full, and is unchanged otherwise; balance is preserved.  This is the only
mutating path that can change the shape of the tree upward. -/
theorem insert_height (t : BPlusTree α) (key : α) (hw : WFT t) (hb : Balanced t.root)
    (hm : 2 ≤ t.maxKeys) :
    height (t.insert key).root =
      (if t.root.keys.length < t.maxKeys then height t.root else height t.root + 1) ∧
      Balanced (t.insert key).root := by
  by_cases hfull : t.root.keys.length < t.maxKeys
  · rw [if_pos hfull]
    obtain ⟨hh2, hb2⟩ := insertNonFull_hb key (sizeOf t.root) t.root le_rfl _ _ _ hw hb hfull hm
    simp only [BPlusTree.insert, if_pos hfull]
    exact ⟨hh2, hb2⟩
  · rw [if_neg hfull]
    have hlen : t.root.keys.length = t.maxKeys := le_antisymm hw.keys_le (le_of_not_lt hfull)
    obtain ⟨hpb, hl, hr, hflatc, hlsz, hrsz⟩ := splitNode_spec hw hlen hm
    obtain ⟨hbl, hbr, hhl, hhr⟩ := splitNode_hb hw hb hm (le_of_eq hlen.symm)
    simp only [BPlusTree.insert, if_neg hfull]
    have hroot : splitChild t.maxKeys [] [t.root] 0 =
        ([(splitNode t.maxKeys t.root).1],
          [(splitNode t.maxKeys t.root).2.1, (splitNode t.maxKeys t.root).2.2]) := by
      simp [splitChild, spliceIn, List.getI]
    rw [hroot]
    have hwf2 : WFN t.maxKeys none none
        (Node.internal [(splitNode t.maxKeys t.root).1]
          [(splitNode t.maxKeys t.root).2.1, (splitNode t.maxKeys t.root).2.2]) := by
      refine WFN.internal (by simp) (by simp; omega) (fun x hx => btw_none x) ?_
      exact Chained.cons hl (Chained.single hr)
    have hmem2 : ∀ c2 ∈ [(splitNode t.maxKeys t.root).2.1, (splitNode t.maxKeys t.root).2.2],
        height c2 = height t.root ∧ Balanced c2 := by
      intro c2 hc2
      rcases List.mem_cons.mp hc2 with rfl | hc3
      · exact ⟨hhl, hbl⟩
      · rcases List.mem_singleton.mp hc3 with rfl
        exact ⟨hhr, hbr⟩
    have hb2 : Balanced (Node.internal [(splitNode t.maxKeys t.root).1]
        [(splitNode t.maxKeys t.root).2.1, (splitNode t.maxKeys t.root).2.2]) :=
      Balanced.internal _ _ (height t.root) (fun c2 hc2 => (hmem2 c2 hc2).2)
        (fun c2 hc2 => (hmem2 c2 hc2).1)
    obtain ⟨hh3, hb3⟩ := insertNonFull_hb key
      (sizeOf (Node.internal [(splitNode t.maxKeys t.root).1]
        [(splitNode t.maxKeys t.root).2.1, (splitNode t.maxKeys t.root).2.2])) _ le_rfl
      t.maxKeys none none hwf2 hb2 (by simp [Node.keys]; omega) hm
    refine ⟨?_, hb3⟩
    rw [hh3, height_uniform _ _ (height t.root) (by simp)
      (fun c2 hc2 => (hmem2 c2 hc2).1)]

/-- `_delete` never changes the height of any subtree (it only removes a key
from one leaf), and keeps the tree balanced. -/
theorem deleteNode_height (key : α) : ∀ (N : Nat) (n : Node α), sizeOf n ≤ N →
    height (deleteNode key n).1 = height n ∧
      (Balanced n → Balanced (deleteNode key n).1) := by
  intro N
  induction N with
  | zero =>
      intro n hn
      exfalso
      cases n <;> simp at hn
  | succ N ih =>
      intro n hn
      cases n with
      | leaf ks =>
          by_cases hmem : key ∈ ks
          · simp only [deleteNode, if_pos hmem]
            exact ⟨by rw [height_leaf, height_leaf], fun _ => Balanced.leaf _⟩
          · simp only [deleteNode, if_neg hmem]
            exact ⟨by trivial, fun hb => hb⟩
      | internal ks cs =>
          rw [deleteNode_internal]
          by_cases h : scanIdx key ks < cs.length
          · rw [List.getElem?_eq_getElem h]
            have hszc : sizeOf cs[scanIdx key ks] ≤ N := by
              have := List.sizeOf_lt_of_mem (List.getElem_mem h)
              simp only [Node.internal.sizeOf_spec] at hn
              omega
            obtain ⟨hhc, hbc⟩ := ih _ hszc
            dsimp only
            constructor
            · rw [height_internal, height_internal, List.map_set]
              have hb1 : scanIdx key ks < (cs.map height).length := by
                simpa using h
              have : height (deleteNode key cs[scanIdx key ks]).1 =
                  (cs.map height)[scanIdx key ks] := by
                rw [hhc]
                simp
              rw [this, set_getElem_self]
            · intro hb
              cases hb with
              | internal _ _ h2 hbal hh =>
                  refine Balanced.internal _ _ h2 ?_ ?_
                  · intro c2 hc2
                    rcases mem_of_mem_set _ _ _ _ hc2 with rfl | hc3
                    · exact hbc (hbal _ (List.getElem_mem h))
                    · exact hbal _ hc3
                  · intro c2 hc2
                    rcases mem_of_mem_set _ _ _ _ hc2 with rfl | hc3
                    · rw [hhc]
                      exact hh _ (List.getElem_mem h)
                    · exact hh _ hc3
          · rw [List.getElem?_eq_none (by omega)]
            exact ⟨rfl, fun hb => hb⟩

/-- Inserting into a tree whose root is a non-full leaf just splices the key
into that leaf. -/
theorem foldl_insert_leaf (m : Nat) : ∀ (keys : List α) (ks0 : List α),
    ks0.length + keys.length ≤ m →
    ∃ ks1 : List α,
      keys.foldl BPlusTree.insert (⟨m, Node.leaf ks0⟩ : BPlusTree α) = ⟨m, Node.leaf ks1⟩ ∧
        ks1.length = ks0.length + keys.length := by
  intro keys
  induction keys with
  | nil =>
      intro ks0 h
      exact ⟨ks0, rfl, by simp⟩
  | cons k keys ih =>
      intro ks0 h
      rw [List.foldl_cons]
      have hlt : ks0.length < m := by
        simp only [List.length_cons] at h
        omega
      have hstep : (⟨m, Node.leaf ks0⟩ : BPlusTree α).insert k =
          ⟨m, Node.leaf (spliceIn ks0 (insScan k ks0) k)⟩ := by
        simp only [BPlusTree.insert, Node.keys]
        rw [if_pos hlt]
        simp only [insertNonFull]
      rw [hstep]
      obtain ⟨ks1, heq, hl⟩ := ih (spliceIn ks0 (insScan k ks0) k)
        (by rw [spliceIn_length]; simp only [List.length_cons] at h; omega)
      refine ⟨ks1, heq, ?_⟩
      rw [hl, spliceIn_length]
      simp only [List.length_cons]
      omega


/-! ## The claims -/

/-- C10: for every tree state and key, `delete` reports found-and-removed
exactly when `search` returns true on that same state: both descend with
the same scan and apply the same exact-match membership test at the leaf. -/
theorem C10_delete_reports_iff_search_finds {α : Type} [LinearOrder α] [Inhabited α]
    (t : BPlusTree α) (key : α) : (t.delete key).2 = t.search key :=
  deleteNode_status_eq_search key (sizeOf t.root) t.root le_rfl

/-- C8: deleting a key that is stored in no leaf of the tree leaves the tree
byte-for-byte unchanged (the very same tree value, no node created, no key
moved) and reports not-found. -/
theorem C8_delete_absent_unchanged {α : Type} [LinearOrder α] [Inhabited α]
    (t : BPlusTree α) (key : α) (h : key ∉ flatKeys t.root) :
    t.delete key = (t, false) := by
  have h2 := deleteNode_not_present key (sizeOf t.root) t.root le_rfl h
  simp only [BPlusTree.delete, h2]

theorem C8_delete_absent_unchanged_witness :
    (⟨4, Node.leaf ['a']⟩ : BPlusTree Char).delete 'z' = (⟨4, Node.leaf ['a']⟩, false) :=
  C8_delete_absent_unchanged ⟨4, Node.leaf ['a']⟩ 'z' (by rw [flatKeys_leaf]; decide)

/-- C6: after every finite sequence of inserts and deletes (starting from a
fresh tree with fan-out `m ≥ 2`), the concatenated keys of the leaf chain —
the leaves read left to right, which is exactly the order the `next`
pointers maintain across every split (lines 68-69) — form an ascending
sequence that is a permutation of the multiset of inserted keys whose
deletions were not reported as found-and-removed. -/
theorem C6_leaf_chain_sorted_multiset {α : Type} [LinearOrder α] [Inhabited α]
    (m : Nat) (ops : List (Op α)) (hm : 2 ≤ m) :
    (flatKeys (runOps m ops).1.root).Sorted (· ≤ ·) ∧
      (flatKeys (runOps m ops).1.root).Perm (runOps m ops).2 := by
  obtain ⟨hw, hmk, hp⟩ := runOps_inv m hm ops
  exact ⟨hw.flat.1, hp⟩

theorem C6_leaf_chain_sorted_multiset_witness :
    (flatKeys (runOps 4 [Op.ins 'b', Op.ins 'a', Op.del 'b']).1.root).Sorted (· ≤ ·) ∧
      (flatKeys (runOps 4 [Op.ins 'b', Op.ins 'a', Op.del 'b']).1.root).Perm
        (runOps 4 [Op.ins 'b', Op.ins 'a', Op.del 'b']).2 :=
  C6_leaf_chain_sorted_multiset 4 [Op.ins 'b', Op.ins 'a', Op.del 'b'] (by decide)

/-- C7: after any sequence of operations on a fresh tree with fan-out
`m ≥ 2`, every node of the tree has its keys sorted ascending with at most
`m` of them, and every internal node has exactly one more child than it has
keys. -/
theorem C7_node_structure_invariant {α : Type} [LinearOrder α] [Inhabited α]
    (m : Nat) (ops : List (Op α)) (hm : 2 ≤ m) :
    ∀ x ∈ allNodes (runOps m ops).1.root,
      (Node.keys x).Sorted (· ≤ ·) ∧ x.keys.length ≤ m ∧
        (x.isLeaf = false → x.children.length = x.keys.length + 1) := by
  obtain ⟨hw, hmk, hp⟩ := runOps_inv m hm ops
  have hw2 : WFN m none none (runOps m ops).1.root := by
    have h3 := hw
    unfold WFT at h3
    rwa [hmk] at h3
  exact wfn_allNodes (sizeOf (runOps m ops).1.root) _ le_rfl m none none hw2

theorem C7_node_structure_invariant_witness :
    (Node.keys (Node.leaf ['a'] : Node Char)).Sorted (· ≤ ·) ∧
      (Node.leaf ['a'] : Node Char).keys.length ≤ 4 ∧
      ((Node.leaf ['a'] : Node Char).isLeaf = false →
        (Node.leaf ['a'] : Node Char).children.length =
          (Node.leaf ['a'] : Node Char).keys.length + 1) :=
  C7_node_structure_invariant 4 [Op.ins 'a'] (by decide) (Node.leaf ['a'])
    (by simp [runOps, applyOp, BPlusTree.mk', BPlusTree.insert, insertNonFull, insScan,
      spliceIn, Node.keys, allNodes, List.rdropWhile])


/-- C9: the height of a (well-formed, balanced) tree grows by exactly one
exactly when `insert` finds the root full (`max_keys` keys); `delete` never
changes the height, so the root split is the only way the tree grows; and
inserting `max_keys` or fewer keys into a fresh tree leaves the height at 1. -/
theorem C9_height_growth {α : Type} [LinearOrder α] [Inhabited α] :
    (∀ (t : BPlusTree α) (key : α), WFT t → Balanced t.root → 2 ≤ t.maxKeys →
      height (t.insert key).root =
        (if t.root.keys.length < t.maxKeys then height t.root else height t.root + 1)) ∧
    (∀ (t : BPlusTree α) (key : α), height (t.delete key).1.root = height t.root) ∧
    (∀ (m : Nat) (keys : List α), keys.length ≤ m →
      height ((keys.foldl BPlusTree.insert (BPlusTree.mk' m)).root) = 1) := by
  refine ⟨?_, ?_, ?_⟩
  · intro t key hw hb hm
    exact (insert_height t key hw hb hm).1
  · intro t key
    simp only [BPlusTree.delete]
    exact (deleteNode_height key (sizeOf t.root) t.root le_rfl).1
  · intro m keys hk
    obtain ⟨ks1, heq, hlen⟩ := foldl_insert_leaf m keys [] (by simpa using hk)
    have hmk : (BPlusTree.mk' m : BPlusTree α) = ⟨m, Node.leaf []⟩ := rfl
    rw [hmk, heq, height_leaf]

theorem C9_height_growth_witness :
    (height ((⟨4, Node.leaf ['a', 'b']⟩ : BPlusTree Char).insert 'c').root =
      (if (⟨4, Node.leaf ['a', 'b']⟩ : BPlusTree Char).root.keys.length <
          (⟨4, Node.leaf ['a', 'b']⟩ : BPlusTree Char).maxKeys
        then height (⟨4, Node.leaf ['a', 'b']⟩ : BPlusTree Char).root
        else height (⟨4, Node.leaf ['a', 'b']⟩ : BPlusTree Char).root + 1)) ∧
    (height ((⟨4, Node.leaf ['a', 'b']⟩ : BPlusTree Char).delete 'a').1.root =
      height (⟨4, Node.leaf ['a', 'b']⟩ : BPlusTree Char).root) ∧
    height ((['a', 'b', 'c'].foldl BPlusTree.insert (BPlusTree.mk' 4)).root) = 1 := by
  refine ⟨?_, ?_, ?_⟩
  · exact C9_height_growth.1 ⟨4, Node.leaf ['a', 'b']⟩ 'c'
      (WFN.leaf (by decide) (by decide) (fun x _ => btw_none x))
      (Balanced.leaf _) (by decide)
  · exact C9_height_growth.2.1 ⟨4, Node.leaf ['a', 'b']⟩ 'a'
  · exact C9_height_growth.2.2 4 ['a', 'b', 'c'] (by decide)


/-- C1: code bug.  On the claim's own example — inserting b, a, d, c, e with
`max_keys = 4` — the leaf split copies the promoted key c into the parent
while keeping it in the right leaf, but the search scan stops at the first
routing key `≥ key` and descends into `children[i]`, the LEFT child of that
routing key.  So c is stored in the tree yet `search("c")` returns false;
a, b, d, e are found and f is not, as the claim states. -/
theorem C1_search_misses_copied_key :
    (((((((BPlusTree.mk' 4 : BPlusTree Char)).insert 'b').insert 'a').insert 'd').insert 'c').insert 'e'
        = ⟨4, Node.internal ['c'] [Node.leaf ['a', 'b'], Node.leaf ['c', 'd', 'e']]⟩) ∧
      'c' ∈ flatKeys (Node.internal ['c'] [Node.leaf ['a', 'b'], Node.leaf ['c', 'd', 'e']]) ∧
      (⟨4, Node.internal ['c'] [Node.leaf ['a', 'b'], Node.leaf ['c', 'd', 'e']]⟩ : BPlusTree Char).search 'a' = true ∧
      (⟨4, Node.internal ['c'] [Node.leaf ['a', 'b'], Node.leaf ['c', 'd', 'e']]⟩ : BPlusTree Char).search 'b' = true ∧
      (⟨4, Node.internal ['c'] [Node.leaf ['a', 'b'], Node.leaf ['c', 'd', 'e']]⟩ : BPlusTree Char).search 'd' = true ∧
      (⟨4, Node.internal ['c'] [Node.leaf ['a', 'b'], Node.leaf ['c', 'd', 'e']]⟩ : BPlusTree Char).search 'e' = true ∧
      (⟨4, Node.internal ['c'] [Node.leaf ['a', 'b'], Node.leaf ['c', 'd', 'e']]⟩ : BPlusTree Char).search 'c' = false ∧
      (⟨4, Node.internal ['c'] [Node.leaf ['a', 'b'], Node.leaf ['c', 'd', 'e']]⟩ : BPlusTree Char).search 'f' = false := by
  refine ⟨?_, ?_, ?_, ?_, ?_, ?_, ?_, ?_⟩
  · simp [BPlusTree.mk', BPlusTree.insert, insertNonFull, insScan, spliceIn, splitChild,
      splitNode, Node.keys, scanIdx, List.rdropWhile]
  · simp [flatKeys]
  all_goals simp [BPlusTree.search, searchNode, scanIdx]

/-- C3: code bug.  A tree state in which c is present (it sits in the right
leaf, reachable from the root), yet `delete("c")` follows the same
left-on-tie descent as search, reaches the left leaf, reports *not-found*
and leaves the tree unchanged — the claim expects found-and-removed. -/
theorem C3_delete_misses_present_key :
    (((((((BPlusTree.mk' 4 : BPlusTree Char)).insert 'b').insert 'a').insert 'd').insert 'c').insert 'e'
        = ⟨4, Node.internal ['c'] [Node.leaf ['a', 'b'], Node.leaf ['c', 'd', 'e']]⟩) ∧
      'c' ∈ flatKeys (Node.internal ['c'] [Node.leaf ['a', 'b'], Node.leaf ['c', 'd', 'e']]) ∧
      ((⟨4, Node.internal ['c'] [Node.leaf ['a', 'b'], Node.leaf ['c', 'd', 'e']]⟩ : BPlusTree Char).delete 'c').2 = false ∧
      ((⟨4, Node.internal ['c'] [Node.leaf ['a', 'b'], Node.leaf ['c', 'd', 'e']]⟩ : BPlusTree Char).delete 'c').1 = ⟨4, Node.internal ['c'] [Node.leaf ['a', 'b'], Node.leaf ['c', 'd', 'e']]⟩ := by
  refine ⟨?_, ?_, ?_, ?_⟩
  · simp [BPlusTree.mk', BPlusTree.insert, insertNonFull, insScan, spliceIn, splitChild,
      splitNode, Node.keys, scanIdx, List.rdropWhile]
  · simp [flatKeys]
  all_goals simp [BPlusTree.delete, deleteNode, scanIdx]

/-- C2 counterexample: at the root `['c']` with children `[leaf [a, b],
leaf [c, d, e]]`, the key c ties with the routing key c; had the descent
continued into the right child of that routing key (the leaf `[c, d, e]`),
the search would return true — but it returns false, because the code
descends into `children[i]`, the left child. -/
theorem C2_tie_goes_left_counterexample :
    searchNode 'c' (Node.internal ['c'] [Node.leaf ['a', 'b'], Node.leaf ['c', 'd', 'e']])
        = false ∧
      searchNode 'c' (Node.leaf ['c', 'd', 'e']) = true := by
  constructor <;> simp [searchNode, scanIdx]

/-- C2 (amended): search at an internal node descends into `children[i]`
where `i` is the first index with `key ≤ keys[i]` (or the last child when no
such index exists), and when the key equals the first qualifying routing
key the descent continues into `children[i]` — the LEFT child of that
boundary key (its right child is `children[i+1]`). -/
theorem C2_descent_first_index_left_child {α : Type} [LinearOrder α] [Inhabited α]
    (key : α) (ks : List α) (cs : List (Node α)) :
    (searchNode key (Node.internal ks cs) =
      match cs[scanIdx key ks]? with
      | some c => searchNode key c
      | none => false) ∧
    scanIdx key ks ≤ ks.length ∧
    (∀ j, j < scanIdx key ks → ks.getI j < key) ∧
    (scanIdx key ks < ks.length → key ≤ ks.getI (scanIdx key ks)) ∧
    (∀ i, i < ks.length → ks.getI i = key → (∀ j, j < i → ks.getI j < key) →
      scanIdx key ks = i) := by
  refine ⟨searchNode_internal key ks cs, scanIdx_le_length key ks,
    fun j hj => scanIdx_lt key ks j hj, fun h => scanIdx_ge key ks h, ?_⟩
  intro i hi hk hfirst
  by_contra hne
  rcases lt_or_gt_of_ne hne with hlt | hgt
  · have h1 := scanIdx_ge key ks (by omega)
    have h2 := hfirst _ hlt
    exact absurd h1 (not_le.mpr h2)
  · have h2 := scanIdx_lt key ks i hgt
    rw [hk] at h2
    exact lt_irrefl key h2

theorem C2_descent_first_index_left_child_witness :
    (searchNode 'c' (Node.internal ['c'] [Node.leaf ['a', 'b'], Node.leaf ['c', 'd', 'e']]) =
      match [Node.leaf ['a', 'b'], Node.leaf ['c', 'd', 'e']][scanIdx 'c' ['c']]? with
      | some c => searchNode 'c' c
      | none => false) ∧
    scanIdx 'c' ['c'] = 0 :=
  ⟨(C2_descent_first_index_left_child 'c' ['c']
      [Node.leaf ['a', 'b'], Node.leaf ['c', 'd', 'e']]).1,
    (C2_descent_first_index_left_child 'c' ['c']
      [Node.leaf ['a', 'b'], Node.leaf ['c', 'd', 'e']]).2.2.2.2 0 (by decide) (by decide)
      (fun j hj => absurd hj (by omega))⟩

/-- C4: splitting a full leaf child moves the right half `keys[mid:]` to a
new leaf inserted as the child at `index + 1`, copies (does not remove) the
first key of that right half into the parent at `index` — so the promoted
key still sits in the right leaf and the left leaf keeps exactly
`keys[0:mid]`.  Concretely, inserting 1..5 in order with `max_keys = 4`
produces a root with the single promoted key 3 over two leaves, 3 still
present in the right leaf and the left leaf holding the first `mid = 2`
keys. -/
theorem C4_leaf_split_copy_up :
    (∀ (α2 : Type) [LinearOrder α2] [Inhabited α2] (m : Nat) (ks : List α2)
      (cs : List (Node α2)) (index : Nat) (lks : List α2),
      2 ≤ m → cs.getI index = Node.leaf lks → lks.length = m →
      splitChild m ks cs index =
        (spliceIn ks index (lks.getI ((m + 1) / 2)),
          spliceIn (cs.set index (Node.leaf (lks.take ((m + 1) / 2)))) (index + 1)
            (Node.leaf (lks.drop ((m + 1) / 2)))) ∧
        lks.getI ((m + 1) / 2) ∈ lks.drop ((m + 1) / 2) ∧
        (lks.drop ((m + 1) / 2)).headI = lks.getI ((m + 1) / 2)) ∧
    (((((((BPlusTree.mk' 4 : BPlusTree Char)).insert '1').insert '2').insert '3').insert '4').insert '5'
        = ⟨4, Node.internal ['3'] [Node.leaf ['1', '2'], Node.leaf ['3', '4', '5']]⟩) ∧
    '3' ∈ flatKeys (Node.leaf ['3', '4', '5']) ∧
    ['1', '2', '3', '4'].take ((4 + 1) / 2) = ['1', '2'] := by
  refine ⟨?_, ?_, ?_, ?_⟩
  · intro α2 _ _ m ks cs index lks hm hget hlen
    have hmid : (m + 1) / 2 < lks.length := by omega
    refine ⟨?_, ?_, headI_drop lks _ hmid⟩
    · simp only [splitChild, hget, splitNode]
      rw [headI_drop lks _ hmid]
    · rw [List.drop_eq_getElem_cons hmid, List.getI_eq_getElem _ hmid]
      exact List.mem_cons_self _ _
  · simp [BPlusTree.mk', BPlusTree.insert, insertNonFull, insScan, spliceIn, splitChild,
      splitNode, Node.keys, scanIdx, List.rdropWhile]
  · simp [flatKeys]
  · rfl

theorem C4_leaf_split_copy_up_witness :
    (splitChild 4 ([] : List Char) [Node.leaf ['1', '2', '3', '4']] 0 =
        (spliceIn [] 0 (['1', '2', '3', '4'].getI ((4 + 1) / 2)),
          spliceIn ([Node.leaf ['1', '2', '3', '4']].set 0
              (Node.leaf (['1', '2', '3', '4'].take ((4 + 1) / 2)))) 1
            (Node.leaf (['1', '2', '3', '4'].drop ((4 + 1) / 2)))) ∧
      ['1', '2', '3', '4'].getI ((4 + 1) / 2) ∈ ['1', '2', '3', '4'].drop ((4 + 1) / 2) ∧
      (['1', '2', '3', '4'].drop ((4 + 1) / 2)).headI = ['1', '2', '3', '4'].getI ((4 + 1) / 2)) :=
  C4_leaf_split_copy_up.1 Char 4 [] [Node.leaf ['1', '2', '3', '4']] 0 ['1', '2', '3', '4']
    (by decide) rfl rfl

/-- C5 counterexample: with `max_keys = 4` the split of a full *internal*
node promotes `keys[mid]` and removes it, so the right half keeps only
`4 - mid - 1 = 1 < 2 = ⌈4/2⌉` keys — the halves are not both at least
`⌈max_keys/2⌉`. -/
theorem C5_internal_right_half_below_half :
    (Node.internal ['b', 'd', 'f', 'h'] [Node.leaf ['a'], Node.leaf ['c'], Node.leaf ['e'],
        Node.leaf ['g'], Node.leaf ['i']] : Node Char).keys.length = 4 ∧
      ¬(2 ≤ ((splitNode 4 (Node.internal ['b', 'd', 'f', 'h'] [Node.leaf ['a'],
        Node.leaf ['c'], Node.leaf ['e'], Node.leaf ['g'],
        Node.leaf ['i']] : Node Char)).2.2).keys.length) := by
  constructor
  · rfl
  · simp [splitNode, Node.keys]

/-- C5 (amended): the split point is `mid = ⌊(max_keys+1)/2⌋`; the left half
keeps exactly `mid` keys; the right half keeps `max_keys - mid` keys for a
leaf split (copy-up) and `max_keys - mid - 1` keys for an internal split
(push-up removes the promoted key). -/
theorem C5_split_sizes {α : Type} [LinearOrder α] [Inhabited α] (m : Nat) (n : Node α)
    (hfull : n.keys.length = m) :
    ((splitNode m n).2.1).keys.length = (m + 1) / 2 ∧
      ((splitNode m n).2.2).keys.length =
        (if n.isLeaf then m - (m + 1) / 2 else m - (m + 1) / 2 - 1) := by
  cases n with
  | leaf ks =>
      simp only [Node.keys] at hfull
      simp [splitNode, Node.keys, Node.isLeaf]
      omega
  | internal ks cs =>
      simp only [Node.keys] at hfull
      simp [splitNode, Node.keys, Node.isLeaf]
      omega

theorem C5_split_sizes_witness :
    ((splitNode 4 (Node.leaf ['a', 'b', 'c', 'd'] : Node Char)).2.1).keys.length = (4 + 1) / 2 ∧
      ((splitNode 4 (Node.leaf ['a', 'b', 'c', 'd'] : Node Char)).2.2).keys.length =
        (if (Node.leaf ['a', 'b', 'c', 'd'] : Node Char).isLeaf
          then 4 - (4 + 1) / 2 else 4 - (4 + 1) / 2 - 1) :=
  C5_split_sizes 4 (Node.leaf ['a', 'b', 'c', 'd']) rfl

end BPlus
